import Mathlib

/-!
Verification development for the chess-helper PGN variation parser and quiz
session engine.  The definitions below are a shallow embedding of the
TypeScript source: strings are Lean strings manipulated as character lists,
the JavaScript regex passes of the tokenizer are rendered as character-list
scans with identical matching behaviour, mutable state becomes explicit
state passing, and the external move validator (chess.js, outside this
repository) is an abstract interface as described in section 6 of the spec.
-/

/-- White space characters recognized by the JavaScript regex class. -/
def isJsWs (c : Char) : Bool :=
  c == ' ' || c == '\t' || c == '\n' || c == '\r' ||
    c == Char.ofNat 11 || c == Char.ofNat 12

/-- One pass scan embedding the replace of every block comment, a brace
followed by non closing brace characters and a closing brace, by a single
space.  The first argument holds the characters consumed since an opening
brace, in reverse, so that an unterminated opening brace is restored as
literal text at the end of input, exactly as the regex leaves it
unmatched. -/
def stripBlockAux : Option (List Char) → List Char → List Char
  | none, [] => []
  | none, c :: rest =>
    if c = '{' then stripBlockAux (some []) rest
    else c :: stripBlockAux none rest
  | some acc, [] => '{' :: acc.reverse
  | some acc, c :: rest =>
    if c = '}' then ' ' :: stripBlockAux none rest
    else stripBlockAux (some (c :: acc)) rest

def stripBlockComments (l : List Char) : List Char := stripBlockAux none l

/-- One pass scan embedding the replace of semicolon comments, a semicolon
and everything up to a line end, by a single space; the line end itself
stays.  The flag records being inside a comment. -/
def stripInlineAux : Bool → List Char → List Char
  | _, [] => []
  | true, c :: rest =>
    if c = '\n' ∨ c = '\r' then c :: stripInlineAux false rest
    else stripInlineAux true rest
  | false, c :: rest =>
    if c = ';' then ' ' :: stripInlineAux true rest
    else c :: stripInlineAux false rest

def stripInlineComments (l : List Char) : List Char := stripInlineAux false l

/-- One pass scan embedding the replace of numeric annotation glyphs, a
dollar sign followed by one or more digits, by a single space.  Mode 0 is
plain text, mode 1 has consumed a dollar sign not yet matched, mode 2 is
inside the digits of a matched glyph. -/
def stripNagsAux : Nat → List Char → List Char
  | 0, [] => []
  | 0, c :: rest =>
    if c = '$' then stripNagsAux 1 rest else c :: stripNagsAux 0 rest
  | 1, [] => ['$']
  | 1, c :: rest =>
    if c.isDigit then stripNagsAux 2 rest
    else if c = '$' then '$' :: stripNagsAux 1 rest
    else '$' :: c :: stripNagsAux 0 rest
  | _ + 2, [] => [' ']
  | _ + 2, c :: rest =>
    if c.isDigit then stripNagsAux 2 rest
    else if c = '$' then ' ' :: stripNagsAux 1 rest
    else ' ' :: c :: stripNagsAux 0 rest

def stripNags (l : List Char) : List Char := stripNagsAux 0 l

/-- One pass scan embedding the replace of move number markers, one or
more digits then a dot then an optional pair of further dots, by a single
space.  The accumulator holds a pending digit run in reverse; a run not
followed by a dot is restored as literal text, as the regex leaves it
unmatched. -/
def stripMoveNumbersAux : Option (List Char) → List Char → List Char
  | none, [] => []
  | none, c :: rest =>
    if c.isDigit then stripMoveNumbersAux (some [c]) rest
    else c :: stripMoveNumbersAux none rest
  | some acc, [] => acc.reverse
  | some _, '.' :: '.' :: '.' :: rest => ' ' :: stripMoveNumbersAux none rest
  | some _, '.' :: rest => ' ' :: stripMoveNumbersAux none rest
  | some acc, c :: rest =>
    if c.isDigit then stripMoveNumbersAux (some (c :: acc)) rest
    else acc.reverse ++ c :: stripMoveNumbersAux none rest

def stripMoveNumbers (l : List Char) : List Char := stripMoveNumbersAux none l

/-- Embeds the replaces surrounding each parenthesis with spaces. -/
def expandParens (l : List Char) : List Char :=
  l.flatMap fun c =>
    if c = '(' then [' ', '(', ' ']
    else if c = ')' then [' ', ')', ' ']
    else [c]

/-- One pass scan embedding the replace of every whitespace run by a
single space; the flag records being inside a run. -/
def collapseAux : Bool → List Char → List Char
  | _, [] => []
  | inWs, c :: rest =>
    if isJsWs c then
      if inWs then collapseAux true rest else ' ' :: collapseAux true rest
    else c :: collapseAux false rest

def collapseSpaces (l : List Char) : List Char := collapseAux false l

/-- Drops whitespace at both ends, the semantics of the trim call. -/
def trimChars (l : List Char) : List Char :=
  ((l.dropWhile isJsWs).reverse.dropWhile isJsWs).reverse

/-- The normalizeMoveText pipeline from the source, pass for pass. -/
def normalizeChars (l : List Char) : List Char :=
  trimChars (collapseSpaces (expandParens (stripMoveNumbers (stripNags
    (stripInlineComments (stripBlockComments l))))))

/-- Split on every single space character, the semantics of the JavaScript
string split with a one character separator: empty segments are kept. -/
def splitOnSp : List Char → List (List Char)
  | [] => [[]]
  | c :: rest =>
    if c = ' ' then [] :: splitOnSp rest
    else
      match splitOnSp rest with
      | t :: ts => (c :: t) :: ts
      | [] => [[c]]

/-- Strips trailing exclamation and question marks from a token. -/
def sanitizeChars (t : List Char) : List Char :=
  (t.reverse.dropWhile (fun c => c == '!' || c == '?')).reverse

/-- The set of game result markers removed from the token stream. -/
def resultTokens : List String := ["1-0", "0-1", "1/2-1/2", "*"]

/-- tokenizeMoveText from the source: normalize, split on spaces, sanitize
each token, drop empty tokens and result markers. -/
def tokenizeMoveText (s : String) : List String :=
  let normalized := normalizeChars s.data
  if normalized = [] then []
  else
    ((splitOnSp normalized).map (fun t => String.mk (sanitizeChars t))).filter
      (fun t => t ≠ "" && !resultTokens.contains t)

/-- Character level join with single spaces, the semantics of join. -/
def joinSpC : List (List Char) → List Char
  | [] => []
  | [t] => t
  | t :: ts => t ++ ' ' :: joinSpC ts

/-- Join a list of strings with single spaces. -/
def joinSp (ls : List String) : String :=
  String.mk (joinSpC (ls.map String.data))

/-- Whitespace characters squashed to plain spaces, helper for splitWs. -/
def wsToSp (c : Char) : Char := if isJsWs c then ' ' else c

/-- Split on whitespace runs and drop empty pieces: the split on the
whitespace regex followed by the Boolean filter from the source. -/
def splitWs (s : String) : List String :=
  ((splitOnSp (s.data.map wsToSp)).filter (· ≠ [])).map String.mk

/-- The trim call on strings. -/
def trimStr (s : String) : String := String.mk (trimChars s.data)

/-- First occurrence deduplication, the semantics of building a JavaScript
Set from a list and spreading it back: keeps the first occurrence of every
element, in order. -/
def dedupAux (seen : List String) : List String → List String
  | [] => []
  | x :: xs => if x ∈ seen then dedupAux seen xs else x :: dedupAux (x :: seen) xs

/-- Spread of a Set built from a list. -/
def jsDedup (l : List String) : List String := dedupAux [] l

/-- parseMainlines from the source.  The TypeScript walks an index through
the token array and returns the index where it stopped together with the
lines collected; here the remaining suffix of the token list plays the role
of the stop index.  The recursion always advances the index, so the token
count bounds the number of steps: the first argument is that bound, and
with fuel at least the token count the zero fuel branch is unreachable
(theorems parseMLGoF_rest_length_le and parseMLGoF_fuel_congr below). -/
def parseMLGoF : Nat → List String → List String → List String →
    List String × List String
  | 0, ts, cur, lines => (lines ++ [joinSp cur], ts)
  | _ + 1, [], cur, lines => (lines ++ [joinSp cur], [])
  | fuel + 1, t :: rest, cur, lines =>
    if t = "(" then
      -- A variation branches from the position before the last played move.
      let inner := parseMLGoF fuel rest cur.dropLast []
      parseMLGoF fuel inner.2 cur (lines ++ inner.1)
    else if t = ")" then (lines ++ [joinSp cur], rest)
    else parseMLGoF fuel rest (cur ++ [t]) lines

/-- parseMainlines over a token list: the entry point supplies enough fuel
for the whole token list. -/
def parseMainlines (tokens seedLine : List String) : List String × List String :=
  parseMLGoF tokens.length tokens seedLine []

/-- moveTextToMainlines from the source: tokenize, parse, trim, drop empty
lines and deduplicate keeping first occurrences. -/
def moveTextToMainlines (moveText : String) : List String :=
  let tokens := tokenizeMoveText moveText
  if tokens = [] then []
  else jsDedup (((parseMainlines tokens []).1.map trimStr).filter (· ≠ ""))

/-- Token count before the first opening parenthesis, skipping closing
parentheses, from findNumMovesToFirstBranch. -/
def countToBranch : List String → Nat
  | [] => 0
  | t :: rest =>
    if t = "(" then 0
    else if t = ")" then countToBranch rest
    else countToBranch rest + 1

/-- findNumMovesToFirstBranch from the source; natural subtraction renders
the clamp to zero. -/
def findNumMovesToFirstBranch (moveText : String) : Nat :=
  countToBranch (tokenizeMoveText moveText) - 1

/-! ## The external move validator

The spec excludes chess rule semantics: the move validator (chess.js) is an
external collaborator, specified only at its interface in section 6.  It is
embedded as an abstract interface: a state, a reset position, SAN and
coordinate move application returning the normalized SAN and the new state
or nothing for an illegal move, undo, the SAN history, and a positionally
comparable text rendering of the current position. -/

structure Validator where
  State : Type
  init : State
  fen : State → String
  history : State → List String
  moveSan : State → String → Option (String × State)
  moveCoord : State → String → String → String → Option (String × State)
  undo : State → State

/-- The starting position constant from the source. -/
def INITIAL_FEN : String := "rnbqkbnr/pppppppp/8/8/8/8/PPPPPPPP/RNBQKBNR w KQkq - 0 1"

/-- MoveNode from the source.  The parent back reference is only a
navigation aid in the source, never consulted by the parser, index builder
or session code modelled here, and is omitted; the reserved counter
numLeafChildren is kept. -/
inductive MoveNode : Type where
  | node (move : String) (moveNum : Nat) (isWhite : Bool) (fen : String)
      (children : List MoveNode) (numLeafChildren : Nat) : MoveNode

def MoveNode.move : MoveNode → String
  | .node m _ _ _ _ _ => m

def MoveNode.moveNum : MoveNode → Nat
  | .node _ n _ _ _ _ => n

def MoveNode.isWhite : MoveNode → Bool
  | .node _ _ w _ _ _ => w

def MoveNode.fen : MoveNode → String
  | .node _ _ _ f _ _ => f

def MoveNode.children : MoveNode → List MoveNode
  | .node _ _ _ _ cs _ => cs

def MoveNode.withChildren : MoveNode → List MoveNode → MoveNode
  | .node m n w f _ k, cs => .node m n w f cs k

/-- hashMoveNode from the source: template string over fen, move number,
move and side. -/
def hashMoveNode (n : MoveNode) : String :=
  n.fen ++ "-" ++ toString n.moveNum ++ "-" ++ n.move ++ "-" ++
    (if n.isWhite then "true" else "false")

/-- First child whose move text matches. -/
def findChildByMove (cs : List MoveNode) (san : String) : Option MoveNode :=
  cs.find? (fun c => c.move == san)

/-- Replace the first child whose move text matches; in the source the
matched child object is mutated in place, which keeps its position. -/
def replaceFirstChild (cs : List MoveNode) (san : String) (c2 : MoveNode) : List MoveNode :=
  match cs with
  | [] => []
  | c :: rest => if c.move == san then c2 :: rest else c :: replaceFirstChild rest san c2

/-- The per mainline loop of mainlinesToMoveTree: replay each token through
the validator, descending into an existing child with the same normalized
SAN or appending a fresh node, and stop at the first rejected token. -/
def addLineGo (V : Validator) : MoveNode → V.State → Nat → Bool → List String → MoveNode
  | node, _, _, _, [] => node
  | node, st, moveNum, isWhite, san :: rest =>
    match V.moveSan st san with
    | none => node
    | some (sanResult, st2) =>
      match findChildByMove node.children sanResult with
      | some child =>
        node.withChildren (replaceFirstChild node.children sanResult
          (addLineGo V child st2 (if isWhite then moveNum else moveNum + 1) (!isWhite) rest))
      | none =>
        node.withChildren (node.children ++
          [addLineGo V (MoveNode.node sanResult moveNum isWhite (V.fen st2) [] 0) st2
            (if isWhite then moveNum else moveNum + 1) (!isWhite) rest])

/-- The root node as built by the source. -/
def rootNode : MoveNode := .node "" 0 false INITIAL_FEN [] 0

/-- mainlinesToMoveTree from the source. -/
def mainlinesToMoveTree (V : Validator) (mainlines : List String) : MoveNode :=
  mainlines.foldl
    (fun root line =>
      let moves := splitWs line
      if moves = [] then root
      else addLineGo V root V.init 1 true moves)
    rootNode

/-- The data recorded in one tree node: normalized SAN, move number, side,
and the resulting position. -/
structure MoveRec where
  san : String
  moveNum : Nat
  isWhite : Bool
  fen : String
deriving DecidableEq

/-- The records produced by replaying a token list through the validator up
to the first rejected token. -/
def recordsFrom (V : Validator) : V.State → Nat → Bool → List String → List MoveRec
  | _, _, _, [] => []
  | st, moveNum, isWhite, san :: rest =>
    match V.moveSan st san with
    | none => []
    | some (sanResult, st2) =>
      ⟨sanResult, moveNum, isWhite, V.fen st2⟩ ::
        recordsFrom V st2 (if isWhite then moveNum else moveNum + 1) (!isWhite) rest

/-- A fresh childless node holding the data of one record. -/
def recNode (r : MoveRec) : MoveNode := .node r.san r.moveNum r.isWhite r.fen [] 0

/-- Validator free core of the tree insertion: descend along records by
SAN, appending fresh nodes once no child matches. -/
def insertRecords : MoveNode → List MoveRec → MoveNode
  | t, [] => t
  | t, r :: rs =>
    match findChildByMove t.children r.san with
    | some c => t.withChildren (replaceFirstChild t.children r.san (insertRecords c rs))
    | none => t.withChildren (t.children ++ [insertRecords (recNode r) rs])

/-! ## The tree index -/

/-- LeafPlan from the source. -/
structure LeafPlan where
  leafHash : String
  sanPath : List String
  nodeHashPath : List String
deriving DecidableEq

/-- TreeIndex from the source.  JavaScript Maps preserve insertion order
and are embedded as association lists; set on an existing key updates in
place, set on a fresh key appends. -/
structure TreeIndex where
  leafPlansByHash : List (String × LeafPlan)
  leafHashesInOrder : List String
  positionMoveLeafIndex : List (String × List (String × List String))
  occurrenceNodeHashByKey : List (String × String)
deriving DecidableEq

def emptyIndex : TreeIndex := ⟨[], [], [], []⟩

def alistGet {β : Type} (l : List (String × β)) (k : String) : Option β :=
  (l.find? (fun e => e.1 == k)).map (·.2)

def alistSet {β : Type} (l : List (String × β)) (k : String) (v : β) : List (String × β) :=
  match l with
  | [] => [(k, v)]
  | e :: rest => if e.1 == k then (k, v) :: rest else e :: alistSet rest k v

def alistRemove {β : Type} (l : List (String × β)) (k : String) : List (String × β) :=
  l.filter (fun e => e.1 != k)

/-- Position key over a natural move index, as built by the index walk. -/
def posKeyN (i : Nat) (moves : List String) : String :=
  toString i ++ "|" ++ joinSp moves

/-- toPgnMoveOccurrenceKey from the source. -/
def toPgnMoveOccurrenceKey (positionKey san : String) : String :=
  positionKey ++ "|" ++ san

/-- The per ply loop inside the index walk: for every ply along a leaf
path, record the leaf hash under the position key and move, and record the
node hash for the occurrence key if absent. -/
def leafLoop (lh : String) : List String → List String → List String → TreeIndex → TreeIndex
  | _, [], _, acc => acc
  | pre, san :: rest, hashes, acc =>
    let nodeHash := hashes.headD ""
    let acc2 :=
      if san = "" ∨ nodeHash = "" then acc
      else
        let positionKey := posKeyN pre.length pre
        let moveToLeafHashes := (alistGet acc.positionMoveLeafIndex positionKey).getD []
        let leafHashesForMove := (alistGet moveToLeafHashes san).getD []
        let leafHashes2 :=
          if leafHashesForMove.contains lh then leafHashesForMove
          else leafHashesForMove ++ [lh]
        let occKey := toPgnMoveOccurrenceKey positionKey san
        { acc with
          positionMoveLeafIndex :=
            alistSet acc.positionMoveLeafIndex positionKey
              (alistSet moveToLeafHashes san leafHashes2)
          occurrenceNodeHashByKey :=
            if (alistGet acc.occurrenceNodeHashByKey occKey).isSome then
              acc.occurrenceNodeHashByKey
            else acc.occurrenceNodeHashByKey ++ [(occKey, nodeHash)] }
    leafLoop lh (pre ++ [san]) rest hashes.tail acc2

/-- The leaf case of the index walk: register the plan and the ordered leaf
hash unless the hash is empty or already present. -/
def updateLeaf (acc : TreeIndex) (sanPath nodeHashPath : List String) : TreeIndex :=
  if nodeHashPath = [] then acc
  else
    let leafHash := nodeHashPath.getLast?.getD ""
    if leafHash = "" ∨ (alistGet acc.leafPlansByHash leafHash).isSome then acc
    else
      let plan : LeafPlan := ⟨leafHash, sanPath, nodeHashPath⟩
      leafLoop leafHash [] sanPath nodeHashPath
        { acc with
          leafPlansByHash := acc.leafPlansByHash ++ [(leafHash, plan)]
          leafHashesInOrder := acc.leafHashesInOrder ++ [leafHash] }

/-- The depth first walk of buildTreeIndex, rendered as a worklist: the
source recurses into each child in order and then continues with the later
siblings, which is exactly processing a preorder worklist whose entries
carry the node together with the move and hash paths leading to it.  Each
step consumes one entry, so the walk performs one step per tree node; the
fuel argument is a bound on those steps: the tree holds at most one node
per replayed token plus the root, so two beyond the total token count of
the lines always covers it (established with the walk lemmas below). -/
def walkF : Nat → List (MoveNode × List String × List String) → TreeIndex → TreeIndex
  | 0, _, acc => acc
  | _ + 1, [], acc => acc
  | fuel + 1, (n, sanPath, nodeHashPath) :: work, acc =>
    match n with
    | .node _ _ _ _ [] _ => walkF fuel work (updateLeaf acc sanPath nodeHashPath)
    | .node _ _ _ _ (c :: cs) _ =>
      walkF fuel
        (((c :: cs).map fun c2 =>
            (c2, sanPath ++ [c2.move], nodeHashPath ++ [hashMoveNode c2])) ++ work)
        acc

/-- buildTreeIndex from the source: join the per line move lists back into
mainlines, build the move tree, and walk it from the root. -/
def buildTreeIndex (V : Validator) (lineMovesByIndex : List (List String)) : TreeIndex :=
  let mainlines := lineMovesByIndex.map joinSp
  let root := mainlinesToMoveTree V mainlines
  walkF (2 + (lineMovesByIndex.map List.length).sum) [(root, [], [])] emptyIndex

/-! ## A concrete validator instance -/

/-- The variation mainline of the worked example in the spec. -/
def lineA : List String :=
  ["e4", "e5", "Nf3", "Nc6", "Bb5", "a6", "Ba4", "Nf6", "O-O", "Nxe4", "Re1", "Nd6"]

/-- The primary mainline of the worked example in the spec. -/
def lineB : List String :=
  ["e4", "e5", "Nf3", "Nc6", "Bb5", "a6", "Ba4", "b5", "Bb3", "Nf6", "O-O"]

/-- All pairs of a proper history prefix of a line and its next move. -/
def prefixPairs (l : List String) : List (List String × String) :=
  (List.range l.length).map (fun i => (l.take i, (l.get? i).getD ""))

/-- The (history, SAN) pairs the concrete validator instance accepts. -/
def sanTable : List (List String × String) :=
  prefixPairs lineA ++ prefixPairs lineB ++ [(([] : List String), "d4")]

/-- The (history, source, target, promotion) quadruples with their SAN for
the coordinate move form of the concrete validator instance. -/
def coordTable : List ((List String × String × String × String) × String) :=
  [ ((([] : List String), "e2", "e4", "q"), "e4"),
    ((([] : List String), "d2", "d4", "q"), "d4"),
    ((([] : List String), "e7", "e8", "q"), "e8=Q") ]

/-- Modelled from the spec: the external move validator (chess.js) is not
part of this repository and section 6 specifies only its interface (reset,
apply a move by SAN or by coordinates with an optional promotion and report
the resulting SAN or illegality, undo, SAN history, positionally comparable
position text).  This instance records the behaviour of chess on the
concrete openings used below as a finite table: a listed pair is a legal
move whose canonical SAN is the token itself, the position text is the
joined history, which is positionally comparable for these lines since they
contain no transpositions, and undo drops the last move. -/
def chessStub : Validator where
  State := List String
  init := []
  fen := fun h => "fen:" ++ joinSp h
  history := fun h => h
  moveSan := fun h san =>
    if sanTable.contains (h, san) then some (san, h ++ [san]) else none
  moveCoord := fun h src tgt promo =>
    (coordTable.find? (fun e => e.1 == (h, src, tgt, promo))).map
      (fun e => (e.2, h ++ [e.2]))
  undo := fun h => h.dropLast

/-! ## The quiz session engine

Model of useLineQuizSession.  The React state cells and their mirroring
refs hold the same data and are collapsed into one record; JavaScript Sets
become insertion ordered duplicate free lists; the timer driven control
flow is rendered synchronously: the auto play chain runs its scheduled
callbacks in order (the spec fixes a single threaded event loop), and the
start of the next line scheduled by a line transition is recorded in
scheduledStartLeafHash instead of firing.  The Math.random draw of the
randomized opponent feature is an oracle function in the configuration. -/

structure SessionCfg (V : Validator) where
  index : TreeIndex
  isPlayingWhite : Bool
  isSkipping : Bool
  skipPlies : Nat
  manualLineAdvance : Bool
  randomizeOpponentBranchMoves : Bool
  isPaused : Bool
  randIdx : Nat → Nat

structure SessionState (V : Validator) where
  chess : V.State
  currFen : String
  isAutoPlaying : Bool
  isCompleted : Bool
  isTransitioningBetweenLines : Bool
  isAwaitingLineAdvance : Bool
  visitedNodeHashes : List String
  remainingLineCount : Nat
  currentMoveIdx : Int
  furthestMoveIdx : Int
  playedSanHistory : List String
  visitedLeafHashes : List String
  branchCycleChoices : List (String × List String)
  pendingNextLeafHash : Option String
  currentTargetLeafHash : Option String
  nextExpectedMoveSan : Option String
  nextMovePositionKey : String
  recentAutoMoveOccurrenceKey : Option String
  moveRejectionMessage : Option String
  scheduledStartLeafHash : Option String

/-- List indexing at a JavaScript number index: negative indices and
indices past the end read as undefined. -/
def getI {α : Type} (l : List α) (i : Int) : Option α :=
  if i < 0 then none else l.get? i.toNat

/-- getPositionKey from the source. -/
def getPositionKey (nextMoveIndex : Int) (playedMoves : List String) : String :=
  toString nextMoveIndex ++ "|" ++ joinSp playedMoves

/-- Set add: append unless present. -/
def addIfAbsent (l : List String) (x : String) : List String :=
  if l.contains x then l else l ++ [x]

/-- chooseLeafHash from the source: the first candidate not yet visited,
else the first candidate, else nothing. -/
def chooseLeafHash (candidateLeafHashes : List String) (visited : List String) :
    Option String :=
  if candidateLeafHashes.length = 0 then none
  else
    match candidateLeafHashes.find? (fun h => !visited.contains h) with
    | some h => some h
    | none => candidateLeafHashes.head?

/-- isUsersTurn from the source: the next ply is White exactly when its
index is even, and it is the human turn when that matches the configured
color. -/
def isUsersTurn {V : Validator} (cfg : SessionCfg V) (s : SessionState V) : Bool :=
  (decide ((s.currentMoveIdx + 1) % 2 = 0)) == cfg.isPlayingWhite

def getCurrentTargetPlan {V : Validator} (cfg : SessionCfg V) (s : SessionState V) :
    Option LeafPlan :=
  s.currentTargetLeafHash.bind (alistGet cfg.index.leafPlansByHash)

/-- isCurrentLineComplete from the source. -/
def isCurrentLineComplete {V : Validator} (cfg : SessionCfg V) (s : SessionState V) :
    Bool :=
  match getCurrentTargetPlan cfg s with
  | none => false
  | some p =>
    decide (0 ≤ s.currentMoveIdx) &&
      decide ((p.sanPath.length : Int) - 1 ≤ s.currentMoveIdx)

/-- syncNextMoveState from the source: recompute the expected next move of
the active plan and the position key of the next ply from the validator
history. -/
def syncNextMoveState (V : Validator) (cfg : SessionCfg V) (s : SessionState V)
    (currentMoveIndexInLine : Int) : SessionState V :=
  { s with
    nextExpectedMoveSan :=
      (getCurrentTargetPlan cfg s).bind (fun p => getI p.sanPath (currentMoveIndexInLine + 1))
    nextMovePositionKey :=
      getPositionKey (currentMoveIndexInLine + 1) (V.history s.chess) }

/-- getNextIncompleteLeafHash from the source. -/
def getNextIncompleteLeafHash {V : Validator} (cfg : SessionCfg V) (s : SessionState V) :
    Option String :=
  cfg.index.leafHashesInOrder.find? (fun h => !s.visitedLeafHashes.contains h)

/-- markVisitedNodeHash from the source; an absent or empty hash is
ignored. -/
def markVisitedNodeHash {V : Validator} (s : SessionState V) (nh : Option String) :
    SessionState V :=
  match nh with
  | none => s
  | some h =>
    if h = "" then s
    else { s with visitedNodeHashes := addIfAbsent s.visitedNodeHashes h }

/-- clearScheduledActions from the source: cancel pending timers and the
auto move highlight, leave transition and wait states. -/
def clearScheduledActions {V : Validator} (s : SessionState V) : SessionState V :=
  { s with
    scheduledStartLeafHash := none
    recentAutoMoveOccurrenceKey := none
    isTransitioningBetweenLines := false
    isAwaitingLineAdvance := false
    pendingNextLeafHash := none
    isAutoPlaying := false }

/-- First stage of advanceToNextLineOrComplete from the source: mark the
finished target leaf visited. -/
def advanceMarkVisited {V : Validator} (s : SessionState V) : SessionState V :=
  match s.currentTargetLeafHash with
  | some h => { s with visitedLeafHashes := addIfAbsent s.visitedLeafHashes h }
  | none => s

/-- Second stage of advanceToNextLineOrComplete from the source: when an
unvisited leaf remains either surface it for a manual advance or schedule
its start, otherwise declare completion. -/
def advanceCore {V : Validator} (cfg : SessionCfg V) (s1 : SessionState V) :
    SessionState V :=
  match getNextIncompleteLeafHash cfg s1 with
  | some nextLeafHash =>
    let remaining := cfg.index.leafHashesInOrder.length - s1.visitedLeafHashes.length
    let s2 := { s1 with remainingLineCount := remaining }
    if cfg.manualLineAdvance then
      { s2 with
        pendingNextLeafHash := some nextLeafHash
        isTransitioningBetweenLines := true
        isAwaitingLineAdvance := true
        isAutoPlaying := false }
    else
      { s2 with
        isTransitioningBetweenLines := true
        isAutoPlaying := true
        scheduledStartLeafHash := some nextLeafHash }
  | none =>
    { s1 with
      isTransitioningBetweenLines := false
      isAwaitingLineAdvance := false
      pendingNextLeafHash := none
      remainingLineCount := 0
      isAutoPlaying := false
      isCompleted := true }

/-- advanceToNextLineOrComplete from the source, as the composition of its
two stages. -/
def advanceToNextLineOrComplete {V : Validator} (cfg : SessionCfg V)
    (s : SessionState V) : SessionState V :=
  advanceCore cfg (advanceMarkVisited s)

/-- playExpectedNextMove from the source.  The set and truncate of the
played history renders the array index assignment followed by slice; in
every reachable state the written index is at most the history length. -/
def playExpectedNextMove (V : Validator) (cfg : SessionCfg V) (s : SessionState V) :
    Option (SessionState V) :=
  let playedMovesBefore := V.history s.chess
  let nextMoveIndexInLine := s.currentMoveIdx + 1
  match (getCurrentTargetPlan cfg s).bind (fun p => getI p.sanPath nextMoveIndexInLine) with
  | none => none
  | some fallbackMove =>
    if fallbackMove = "" then none
    else
      let positionKey := getPositionKey nextMoveIndexInLine playedMovesBefore
      let moveToLeafHashesOpt := alistGet cfg.index.positionMoveLeafIndex positionKey
      let isComputerTurn := !isUsersTurn cfg s
      let selected : String × Option String :=
        match moveToLeafHashesOpt with
        | some m =>
          if cfg.randomizeOpponentBranchMoves && isComputerTurn && decide (1 < m.length) then
            let moveOptionsWithIncompleteLeaves :=
              m.filter (fun e => e.2.any (fun lh => !s.visitedLeafHashes.contains lh))
            let selectionPool :=
              if 0 < moveOptionsWithIncompleteLeaves.length then
                moveOptionsWithIncompleteLeaves
              else m
            match selectionPool.get? (cfg.randIdx selectionPool.length) with
            | some randomChoice =>
              (randomChoice.1, chooseLeafHash randomChoice.2 s.visitedLeafHashes)
            | none => (fallbackMove, s.currentTargetLeafHash)
          else (fallbackMove, s.currentTargetLeafHash)
        | none => (fallbackMove, s.currentTargetLeafHash)
      match V.moveSan s.chess selected.1 with
      | none => none
      | some (_, chess2) =>
        let s1 := { s with chess := chess2 }
        let s2 :=
          match selected.2 with
          | some lh => { s1 with currentTargetLeafHash := some lh }
          | none => s1
        let occurrenceKey := toPgnMoveOccurrenceKey positionKey selected.1
        let nodeHash := alistGet cfg.index.occurrenceNodeHashByKey occurrenceKey
        let s3 := markVisitedNodeHash s2 nodeHash
        let s4 := { s3 with recentAutoMoveOccurrenceKey := some occurrenceKey }
        let s5 :=
          { s4 with
            playedSanHistory :=
              s4.playedSanHistory.take nextMoveIndexInLine.toNat ++ [selected.1]
            currentMoveIdx := nextMoveIndexInLine }
        let s6 := syncNextMoveState V cfg s5 nextMoveIndexInLine
        some { s6 with
          furthestMoveIdx := max s6.furthestMoveIdx nextMoveIndexInLine
          currFen := V.fen chess2 }

/-- runAutoMoves from the source, with the scheduled callbacks of the
chain resolved in order. -/
def runAutoMoves (V : Validator) (cfg : SessionCfg V) (plies : Nat)
    (s : SessionState V) : SessionState V :=
  if cfg.isPaused then { s with isAutoPlaying := false }
  else
    match plies with
    | 0 => { s with isAutoPlaying := false }
    | n + 1 =>
      let s1 := { s with isAutoPlaying := true }
      match playExpectedNextMove V cfg s1 with
      | none => { s1 with isAutoPlaying := false }
      | some s2 =>
        if isCurrentLineComplete cfg s2 then
          advanceToNextLineOrComplete cfg { s2 with isAutoPlaying := false }
        else runAutoMoves V cfg n s2

/-- startLeaf from the source: clear pending work, point the session at
the leaf, reset the validator and counters, then auto play the skip plies
plus one extra ply when the ply reached is not the human turn. -/
def startLeaf (V : Validator) (cfg : SessionCfg V) (leafHash : String)
    (s : SessionState V) : SessionState V :=
  let s0 := clearScheduledActions s
  match alistGet cfg.index.leafPlansByHash leafHash with
  | none => s0
  | some targetPlan =>
    let s1 :=
      { s0 with
        currentTargetLeafHash := some leafHash
        currentMoveIdx := -1
        furthestMoveIdx := -1
        playedSanHistory := []
        isCompleted := false
        isTransitioningBetweenLines := false
        moveRejectionMessage := none
        chess := V.init
        currFen := V.fen V.init }
    let s2 := syncNextMoveState V cfg s1 (-1)
    if targetPlan.sanPath.length = 0 then advanceToNextLineOrComplete cfg s2
    else
      let base := if cfg.isSkipping then min cfg.skipPlies targetPlan.sanPath.length else 0
      let autoPlies :=
        if base < targetPlan.sanPath.length then
          if (decide (base % 2 = 0)) == cfg.isPlayingWhite then base else base + 1
        else base
      if 0 < autoPlies then runAutoMoves V cfg autoPlies s2
      else { s2 with isAutoPlaying := false }

/-- continueToNextLine from the source. -/
def continueToNextLine (V : Validator) (cfg : SessionCfg V) (s : SessionState V) :
    SessionState V :=
  match s.pendingNextLeafHash with
  | none => s
  | some nextLeafHash =>
    startLeaf V cfg nextLeafHash
      { s with pendingNextLeafHash := none, isAwaitingLineAdvance := false }

/-- The user facing rejection message for a repeated branch choice. -/
def alreadyChosenMessage : String :=
  "That move was already chosen at this branch. Pick a different PGN move."

/-- The branch cycle block of onPieceDrop: reject a SAN already chosen at
this branching position during the current cycle, otherwise record it, and
drop the tracking once the chosen set reaches the size of the move map. -/
def branchCycleStep (mapSize : Nat) (chosen : List String) (san : String) :
    Bool × Option (List String) :=
  if chosen.contains san then (false, some chosen)
  else
    let chosen2 := chosen ++ [san]
    if mapSize ≤ chosen2.length then (true, none) else (true, some chosen2)

/-- onPieceDrop from the source. -/
def onPieceDrop (V : Validator) (cfg : SessionCfg V) (s : SessionState V)
    (sourceSquare targetSquare : String) : Bool × SessionState V :=
  if s.isCompleted then (false, s)
  else if s.isAutoPlaying then (false, s)
  else if cfg.isPaused then (false, s)
  else if s.isAwaitingLineAdvance then (false, s)
  else if isCurrentLineComplete cfg s then (false, s)
  else if !isUsersTurn cfg s then (false, s)
  else
    let playedMovesBefore := V.history s.chess
    let nextMoveIndexInLine := s.currentMoveIdx + 1
    match (getCurrentTargetPlan cfg s).bind (fun p => getI p.sanPath nextMoveIndexInLine) with
    | none => (false, s)
    | some expectedMove =>
      if expectedMove = "" then (false, s)
      else
        match V.moveCoord s.chess sourceSquare targetSquare "q" with
        | none => (false, s)
        | some (san, chess2) =>
          let s1 := { s with chess := chess2 }
          let positionKey := getPositionKey nextMoveIndexInLine playedMovesBefore
          let moveToLeafHashesOpt := alistGet cfg.index.positionMoveLeafIndex positionKey
          let leafHashesForMove :=
            (moveToLeafHashesOpt.map (fun m => (alistGet m san).getD [])).getD []
          if leafHashesForMove.length = 0 && san != expectedMove then
            let s2 := { s1 with chess := V.undo s1.chess }
            (false, { s2 with currFen := V.fen s2.chess })
          else
            let branchResult : Option (SessionState V) :=
              match moveToLeafHashesOpt with
              | some m =>
                if 1 < m.length then
                  let alreadyChosenAtPosition :=
                    (alistGet s1.branchCycleChoices positionKey).getD []
                  match branchCycleStep m.length alreadyChosenAtPosition san with
                  | (false, _) => none
                  | (true, none) =>
                    some { s1 with
                      branchCycleChoices := alistRemove s1.branchCycleChoices positionKey }
                  | (true, some chosen2) =>
                    some { s1 with
                      branchCycleChoices := alistSet s1.branchCycleChoices positionKey chosen2 }
                else some s1
              | none => some s1
            match branchResult with
            | none =>
              let s2 := { s1 with chess := V.undo s1.chess }
              (false,
                { s2 with
                  currFen := V.fen s2.chess
                  moveRejectionMessage := some alreadyChosenMessage })
            | some s3 =>
              let s4 :=
                match chooseLeafHash leafHashesForMove s3.visitedLeafHashes with
                | some lh => { s3 with currentTargetLeafHash := some lh }
                | none => s3
              let occurrenceKey := toPgnMoveOccurrenceKey positionKey san
              let nodeHash := alistGet cfg.index.occurrenceNodeHashByKey occurrenceKey
              let s5 := markVisitedNodeHash s4 nodeHash
              let s6 :=
                { s5 with
                  playedSanHistory :=
                    s5.playedSanHistory.take nextMoveIndexInLine.toNat ++ [san]
                  currentMoveIdx := nextMoveIndexInLine }
              let s7 := syncNextMoveState V cfg s6 nextMoveIndexInLine
              let s8 :=
                { s7 with
                  recentAutoMoveOccurrenceKey := none
                  furthestMoveIdx := max s7.furthestMoveIdx nextMoveIndexInLine
                  currFen := V.fen s7.chess
                  moveRejectionMessage := none }
              if isCurrentLineComplete cfg s8 then
                (true, advanceToNextLineOrComplete cfg s8)
              else if !isUsersTurn cfg s8 then (true, runAutoMoves V cfg 1 s8)
              else (true, s8)

/-- The fully reset session record the source builds when no leaf exists or
a fresh quiz begins. -/
def blankState (V : Validator) : SessionState V :=
  { chess := V.init
    currFen := V.fen V.init
    isAutoPlaying := false
    isCompleted := false
    isTransitioningBetweenLines := false
    isAwaitingLineAdvance := false
    visitedNodeHashes := []
    remainingLineCount := 0
    currentMoveIdx := -1
    furthestMoveIdx := -1
    playedSanHistory := []
    visitedLeafHashes := []
    branchCycleChoices := []
    pendingNextLeafHash := none
    currentTargetLeafHash := none
    nextExpectedMoveSan := none
    nextMovePositionKey := "0|"
    recentAutoMoveOccurrenceKey := none
    moveRejectionMessage := none
    scheduledStartLeafHash := none }

/-! ## C8: the tree builder stops a mainline at the first rejected token -/

/-- The validator state after replaying a token list, or nothing if some
token is rejected along the way. -/
def stateAfter (V : Validator) : V.State → List String → Option V.State
  | st, [] => some st
  | st, m :: ms =>
    match V.moveSan st m with
    | none => none
    | some (_, st2) => stateAfter V st2 ms

instance : DecidableEq chessStub.State :=
  inferInstanceAs (DecidableEq (List String))

/-- A two leaf index with one leaf left to visit, for concrete session
instances. -/
def c2cfg : SessionCfg chessStub :=
  { index := ⟨[("h1", ⟨"h1", ["e4"], ["h1"]⟩), ("h2", ⟨"h2", ["d4"], ["h2"]⟩)],
      ["h1", "h2"], [], []⟩
    isPlayingWhite := true
    isSkipping := false
    skipPlies := 0
    manualLineAdvance := false
    randomizeOpponentBranchMoves := false
    isPaused := false
    randIdx := fun _ => 0 }

def c2state : SessionState chessStub :=
  { blankState chessStub with
    visitedLeafHashes := ["h1"]
    currentTargetLeafHash := some "h2" }

def c4cfg : SessionCfg chessStub :=
  { index := ⟨[("hB", ⟨"hB", ["d4"], ["hB"]⟩)], ["hB"],
      [("0|", [("d4", ["hB"])])], []⟩
    isPlayingWhite := true
    isSkipping := false
    skipPlies := 0
    manualLineAdvance := false
    randomizeOpponentBranchMoves := false
    isPaused := false
    randIdx := fun _ => 0 }

def c4state : SessionState chessStub :=
  { blankState chessStub with currentTargetLeafHash := some "hB" }

/-! ## C3: branch cycle discipline -/

/-- Runs a list of attempted SANs through the branch cycle block, true
when every attempt is accepted and no reset happens along the way. -/
def acceptsAllNoReset (n : Nat) : List String → List String → Bool
  | _, [] => true
  | chosen, sanNext :: rest =>
    match branchCycleStep n chosen sanNext with
    | (true, some chosen2) => acceptsAllNoReset n chosen2 rest
    | _ => false

def c10cfg : SessionCfg chessStub :=
  { index := ⟨[("hN", ⟨"hN", ["e8=N"], ["hN"]⟩)], ["hN"], [], []⟩
    isPlayingWhite := true
    isSkipping := false
    skipPlies := 0
    manualLineAdvance := false
    randomizeOpponentBranchMoves := false
    isPaused := false
    randIdx := fun _ => 0 }

def c10state : SessionState chessStub :=
  { blankState chessStub with currentTargetLeafHash := some "hN" }

/-- The example move text of the specification. -/
def exText : String :=
  "1. e4 e5 2. Nf3 Nc6 3. Bb5 a6 4. Ba4 b5 ( 4... Nf6 5. O-O Nxe4 6. Re1 Nd6 ) 5. Bb3 Nf6 6. O-O"

/-- A session configuration over the example's two lines, with the skip
option enabled and the skip count the source computes from the example
text, for a human playing Black. -/
def c5cfg : SessionCfg chessStub :=
  { index := ⟨[("hA", ⟨"hA", lineA, ["hA"]⟩), ("hB", ⟨"hB", lineB, ["hB"]⟩)],
      ["hA", "hB"], [], []⟩
    isPlayingWhite := false
    isSkipping := true
    skipPlies := findNumMovesToFirstBranch exText
    manualLineAdvance := false
    randomizeOpponentBranchMoves := false
    isPaused := false
    randIdx := fun _ => 0 }

/-! ## C1 and C9: leaves of the move tree -/

/-- Boolean test that the first token list is an initial segment of the
second. -/
def leadsB : List String → List String → Bool
  | [], _ => true
  | _ :: _, [] => false
  | a :: as, b :: bs => a == b && leadsB as bs

/-- The number of nodes of a move tree. -/
def nodeCount : MoveNode → Nat
  | .node _ _ _ _ cs _ => 1 + (cs.attach.map (fun c => nodeCount c.1)).sum
decreasing_by
  have := List.sizeOf_lt_of_mem c.2
  simp_wf
  omega

/-- The leaf paths of a move tree, relative to its root: for every leaf in
depth first order, the move texts and the node hashes along the path. -/
def leafPairs : MoveNode → List (List String × List String)
  | .node _ _ _ _ [] _ => [([], [])]
  | .node _ _ _ _ (c :: cs) _ =>
    ((c :: cs).attach.map (fun c2 =>
      (leafPairs c2.1).map (fun pr =>
        (c2.1.move :: pr.1, hashMoveNode c2.1 :: pr.2)))).flatten
decreasing_by
  have := List.sizeOf_lt_of_mem c2.2
  simp only [List.cons.sizeOf_spec] at this
  simp_wf
  omega

/-- The hash of the leaf node a line's records produce, empty when the
line produces no record. -/
def lineLeafHash (V : Validator) (l : List String) : String :=
  ((recordsFrom V V.init 1 true l).map
    (fun r => hashMoveNode (recNode r))).getLast?.getD ""

/-- The parse consumes tokens left to right: the unparsed remainder is
never longer than the input. -/
theorem parseMLGoF_rest_length_le :
    ∀ (fuel : Nat) (ts cur lines : List String),
      (parseMLGoF fuel ts cur lines).2.length ≤ ts.length := by
  intro fuel
  induction fuel with
  | zero => intro ts cur lines; simp [parseMLGoF]
  | succ fuel ih =>
    intro ts cur lines
    match ts with
    | [] => simp [parseMLGoF]
    | t :: rest =>
      by_cases h1 : t = "("
      · simp only [parseMLGoF, if_pos h1]
        have ha := ih rest cur.dropLast []
        have hb := ih (parseMLGoF fuel rest cur.dropLast []).2 cur
          (lines ++ (parseMLGoF fuel rest cur.dropLast []).1)
        simp only [List.length_cons]
        omega
      · by_cases h2 : t = ")"
        · simp only [parseMLGoF, if_neg h1, if_pos h2, List.length_cons]
          omega
        · simp only [parseMLGoF, if_neg h1, if_neg h2]
          have := ih rest (cur ++ [t]) lines
          simp only [List.length_cons]
          omega

/-- Fuel does not matter once it covers the token count. -/
theorem parseMLGoF_fuel_congr :
    ∀ (f1 f2 : Nat) (ts cur lines : List String), ts.length ≤ f1 → ts.length ≤ f2 →
      parseMLGoF f1 ts cur lines = parseMLGoF f2 ts cur lines := by
  intro f1
  induction f1 with
  | zero =>
    intro f2 ts cur lines h1 _
    have : ts = [] := by
      cases ts with
      | nil => rfl
      | cons t r => simp at h1
    subst this
    cases f2 with
    | zero => rfl
    | succ g => simp [parseMLGoF]
  | succ f1 ih =>
    intro f2 ts cur lines h1 h2
    cases ts with
    | nil =>
      cases f2 with
      | zero => simp [parseMLGoF]
      | succ g => rfl
    | cons t rest =>
      cases f2 with
      | zero => simp at h2
      | succ g =>
        simp only [List.length_cons] at h1 h2
        by_cases hp1 : t = "("
        · simp only [parseMLGoF, if_pos hp1]
          have hinner := ih g rest cur.dropLast [] (by omega) (by omega)
          rw [hinner]
          have hrest := parseMLGoF_rest_length_le g rest cur.dropLast []
          exact ih g (parseMLGoF g rest cur.dropLast []).2 cur
            (lines ++ (parseMLGoF g rest cur.dropLast []).1)
            (by omega) (by omega)
        · by_cases hp2 : t = ")"
          · simp [parseMLGoF, hp1, hp2]
          · simp only [parseMLGoF, if_neg hp1, if_neg hp2]
            exact ih g rest (cur ++ [t]) lines (by omega) (by omega)

/-- addLineGo factors through the validator replay: the tree insertion only
depends on the records of the successfully replayed prefix. -/
theorem addLineGo_eq_insertRecords (V : Validator) :
    ∀ (moves : List String) (t : MoveNode) (st : V.State) (n : Nat) (w : Bool),
      addLineGo V t st n w moves = insertRecords t (recordsFrom V st n w moves) := by
  intro moves
  induction moves with
  | nil => intro t st n w; rfl
  | cons san rest ih =>
    intro t st n w
    simp only [addLineGo, recordsFrom]
    cases h : V.moveSan st san with
    | none => rfl
    | some p =>
      cases p with
      | mk sanResult st2 =>
        simp only [insertRecords]
        cases hf : findChildByMove t.children sanResult with
        | none => simp [hf, ih, recNode]
        | some child => simp [hf, ih]

/-! ## Parser tolerance: helper lemmas -/

/-- The empty token list yields the seed line and no remaining tokens, at
any fuel. -/
theorem parseMLGoF_nil (fuel : Nat) (cur lines : List String) :
    parseMLGoF fuel [] cur lines = (lines ++ [joinSp cur], []) := by
  cases fuel with
  | zero => rfl
  | succ g => rfl

/-- A closing parenthesis immediately finalizes the line being built and
hands the remaining tokens back to the caller: the innermost open branch
is closed. -/
theorem parseMLGoF_close (fuel : Nat) (rest cur lines : List String) :
    parseMLGoF (fuel + 1) (")" :: rest) cur lines = (lines ++ [joinSp cur], rest) := by
  simp [parseMLGoF]

/-- A parenthesis free token run is appended to the current line and
finalized at end of input. -/
theorem parseMLGoF_plain :
    ∀ (ts cur lines : List String) (fuel : Nat), ts.length ≤ fuel →
      (∀ t ∈ ts, t ≠ "(" ∧ t ≠ ")") →
      parseMLGoF fuel ts cur lines = (lines ++ [joinSp (cur ++ ts)], []) := by
  intro ts
  induction ts with
  | nil =>
    intro cur lines fuel _ _
    rw [parseMLGoF_nil]
    simp
  | cons t rest ih =>
    intro cur lines fuel hf ht
    cases fuel with
    | zero => simp at hf
    | succ g =>
      have h1 : t ≠ "(" := (ht t (by simp)).1
      have h2 : t ≠ ")" := (ht t (by simp)).2
      simp only [parseMLGoF, if_neg h1, if_neg h2]
      rw [ih (cur ++ [t]) lines g (by simp at hf; omega)
        (fun x hx => ht x (by simp [hx]))]
      simp

/-- A trailing unclosed opening parenthesis is implicitly closed at end of
input: the branch contributes its line, and the outer line is still
finalized afterwards. -/
theorem parseMLGoF_unclosed (ts cur lines : List String) (fuel : Nat)
    (hf : ts.length ≤ fuel) (ht : ∀ t ∈ ts, t ≠ "(" ∧ t ≠ ")") :
    parseMLGoF (fuel + 1) ("(" :: ts) cur lines =
      (lines ++ [joinSp (cur.dropLast ++ ts)] ++ [joinSp cur], []) := by
  simp only [parseMLGoF, if_pos rfl]
  rw [parseMLGoF_plain ts cur.dropLast [] fuel hf ht]
  simp only []
  rw [parseMLGoF_nil]
  simp

/-- Parsing always produces at least one line beyond those already
collected: every input, balanced or not, yields a defined result. -/
theorem parseMLGoF_line_count :
    ∀ (fuel : Nat) (ts cur lines : List String),
      lines.length < (parseMLGoF fuel ts cur lines).1.length := by
  intro fuel
  induction fuel with
  | zero => intro ts cur lines; simp [parseMLGoF]
  | succ g ih =>
    intro ts cur lines
    match ts with
    | [] => simp [parseMLGoF]
    | t :: rest =>
      by_cases h1 : t = "("
      · simp only [parseMLGoF, if_pos h1]
        have ha := ih rest cur.dropLast []
        have hb := ih (parseMLGoF g rest cur.dropLast []).2 cur
          (lines ++ (parseMLGoF g rest cur.dropLast []).1)
        simp only [List.length_append] at hb
        omega
      · by_cases h2 : t = ")"
        · simp [parseMLGoF, h1, h2]
        · simp only [parseMLGoF, if_neg h1, if_neg h2]
          exact ih rest (cur ++ [t]) lines

/-- C7.  Tokenization and mainline parsing are total: both are plain
recursive functions defined on every string, and parsing always returns
at least one finalized line.  The empty string yields an empty token list
and zero mainlines.  An unmatched closing parenthesis finalizes the line
of the innermost open branch and returns to the caller right there, and a
trailing unclosed opening parenthesis is implicitly closed at end of
input, its branch line contributed before the outer line. -/
theorem c7_parser_total_and_tolerant :
    tokenizeMoveText "" = [] ∧
    moveTextToMainlines "" = [] ∧
    (∀ (fuel : Nat) (rest cur lines : List String),
      parseMLGoF (fuel + 1) (")" :: rest) cur lines = (lines ++ [joinSp cur], rest)) ∧
    (∀ (ts cur lines : List String) (fuel : Nat), ts.length ≤ fuel →
      (∀ t ∈ ts, t ≠ "(" ∧ t ≠ ")") →
      parseMLGoF (fuel + 1) ("(" :: ts) cur lines =
        (lines ++ [joinSp (cur.dropLast ++ ts)] ++ [joinSp cur], [])) ∧
    (∀ (fuel : Nat) (ts cur lines : List String),
      lines.length < (parseMLGoF fuel ts cur lines).1.length) := by
  refine ⟨by decide, by decide, parseMLGoF_close, ?_, parseMLGoF_line_count⟩
  intro ts cur lines fuel hf ht
  exact parseMLGoF_unclosed ts cur lines fuel hf ht

/-- Witness for C7 at concrete inputs: an unmatched closing parenthesis
after one move, and an unclosed opening parenthesis before one move. -/
theorem c7_witness :
    parseMLGoF 3 [")", "e5"] ["e4"] [] = (["e4"], ["e5"]) ∧
    parseMLGoF 2 ["(", "d4"] ["e4"] [] = (["d4", "e4"], []) ∧
    0 < (parseMLGoF 2 ["e4", "e5"] [] []).1.length := by
  refine ⟨?_, ?_, ?_⟩
  · have h := c7_parser_total_and_tolerant.2.2.1 2 ["e5"] ["e4"] []
    simpa using h
  · have h := c7_parser_total_and_tolerant.2.2.2.1 ["d4"] ["e4"] [] 1
      (by decide) (by decide)
    simpa using h
  · have h := c7_parser_total_and_tolerant.2.2.2.2 2 ["e4", "e5"] [] []
    simpa using h

/-! ## Deduplication: first occurrences in order -/

/-- Full characterization of the Set based deduplication pass: the result
has no duplicates, contains an element exactly when the input contains it
outside the seen set, and lists elements in the order of their first
occurrence in the input. -/
theorem dedupAux_spec :
    ∀ (l seen : List String),
      (dedupAux seen l).Nodup ∧
      (∀ x, x ∈ dedupAux seen l ↔ x ∈ l ∧ x ∉ seen) ∧
      (dedupAux seen l).Pairwise (fun a b => l.indexOf a < l.indexOf b) := by
  intro l
  induction l with
  | nil => intro seen; simp [dedupAux]
  | cons x xs ih =>
    intro seen
    by_cases hx : x ∈ seen
    · simp only [dedupAux, if_pos hx]
      obtain ⟨hnd, hmem, hpw⟩ := ih seen
      refine ⟨hnd, ?_, ?_⟩
      · intro a
        rw [hmem a]
        constructor
        · rintro ⟨ha, hs⟩
          exact ⟨by simp [ha], hs⟩
        · rintro ⟨ha, hs⟩
          rcases List.mem_cons.mp ha with h | h
          · exact absurd (h ▸ hx) hs
          · exact ⟨h, hs⟩
      · refine hpw.imp_of_mem ?_
        intro a b ha hb hab
        have ha2 := (hmem a).mp ha
        have hb2 := (hmem b).mp hb
        have hax : a ≠ x := fun h => ha2.2 (h ▸ hx)
        have hbx : b ≠ x := fun h => hb2.2 (h ▸ hx)
        rw [List.indexOf_cons_ne _ (Ne.symm hax), List.indexOf_cons_ne _ (Ne.symm hbx)]
        omega
    · simp only [dedupAux, if_neg hx]
      obtain ⟨hnd, hmem, hpw⟩ := ih (x :: seen)
      have hxtail : x ∉ dedupAux (x :: seen) xs := by
        intro hc
        exact ((hmem x).mp hc).2 (by simp)
      refine ⟨?_, ?_, ?_⟩
      · exact List.nodup_cons.mpr ⟨hxtail, hnd⟩
      · intro a
        simp only [List.mem_cons]
        constructor
        · rintro (rfl | ha)
          · exact ⟨Or.inl rfl, hx⟩
          · obtain ⟨h1, h2⟩ := (hmem a).mp ha
            refine ⟨Or.inr h1, ?_⟩
            intro hs
            exact h2 (by simp [hs])
        · rintro ⟨h1, h2⟩
          by_cases hax : a = x
          · exact Or.inl hax
          · rcases h1 with h | h
            · exact absurd h hax
            · refine Or.inr ((hmem a).mpr ⟨h, ?_⟩)
              simp only [List.mem_cons]
              rintro (hc | hc)
              · exact hax hc
              · exact h2 hc
      · refine List.pairwise_cons.mpr ⟨?_, ?_⟩
        · intro b hb
          obtain ⟨hb1, hb2⟩ := (hmem b).mp hb
          have hbx : b ≠ x := fun h => hb2 (by simp [h])
          rw [List.indexOf_cons_self, List.indexOf_cons_ne _ (Ne.symm hbx)]
          omega
        · refine (hpw.imp_of_mem ?_)
          intro a b ha hb hab
          have ha2 := (hmem a).mp ha
          have hb2 := (hmem b).mp hb
          have hax : a ≠ x := fun h => ha2.2 (by simp [h])
          have hbx : b ≠ x := fun h => hb2.2 (by simp [h])
          rw [List.indexOf_cons_ne _ (Ne.symm hax), List.indexOf_cons_ne _ (Ne.symm hbx)]
          omega

/-- moveTextToMainlines is the deduplication of the trimmed nonempty
parsed lines, in both branches of the empty token guard. -/
theorem moveTextToMainlines_eq (mt : String) :
    moveTextToMainlines mt =
      jsDedup (((parseMainlines (tokenizeMoveText mt) []).1.map trimStr).filter
        (· ≠ "")) := by
  unfold moveTextToMainlines
  by_cases h : tokenizeMoveText mt = []
  · simp only [h, if_pos rfl]
    rfl
  · simp only [if_neg h]

/-- C6 counterexample: on the token list of the text "e4 e5 ( )" the
parenthesized group contains no move tokens, yet it contributes the
mainline "e4" (the current line with its last move removed), so the result
is not the single line "e4 e5" the claim predicts. -/
theorem c6_counterexample :
    moveTextToMainlines "e4 e5 ( )" = ["e4", "e4 e5"] ∧
    "e4" ∈ moveTextToMainlines "e4 e5 ( )" ∧
    moveTextToMainlines "e4 e5 ( )" ≠ ["e4 e5"] := by
  refine ⟨by decide, by decide, by decide⟩

/-- C6 as amended.  A parenthesized group with no move tokens contributes
the branch seed, the current line with its last move removed, as a
finalized line; it contributes nothing only when that seed joins to the
empty string, which the final filter discards.  The returned list is
deduplicated by exact text equality and lists lines in the order of their
first appearance among the trimmed nonempty parsed lines. -/
theorem c6_empty_group_and_dedup (mt : String) :
    (moveTextToMainlines mt).Nodup ∧
    (∀ x, x ∈ moveTextToMainlines mt ↔
      x ∈ ((parseMainlines (tokenizeMoveText mt) []).1.map trimStr).filter (· ≠ "")) ∧
    (moveTextToMainlines mt).Pairwise (fun a b =>
      (((parseMainlines (tokenizeMoveText mt) []).1.map trimStr).filter
          (· ≠ "")).indexOf a <
        (((parseMainlines (tokenizeMoveText mt) []).1.map trimStr).filter
          (· ≠ "")).indexOf b) ∧
    (∀ (g : Nat) (rest cur lines : List String),
      parseMLGoF (g + 2) ("(" :: ")" :: rest) cur lines =
        parseMLGoF (g + 1) rest cur (lines ++ [joinSp cur.dropLast])) := by
  obtain ⟨hnd, hmem, hpw⟩ :=
    dedupAux_spec (((parseMainlines (tokenizeMoveText mt) []).1.map trimStr).filter
      (· ≠ "")) []
  rw [moveTextToMainlines_eq mt]
  refine ⟨hnd, ?_, hpw, ?_⟩
  · intro x
    constructor
    · intro hx
      exact ((hmem x).mp hx).1
    · intro hx
      exact (hmem x).mpr ⟨hx, by simp⟩
  · intro g rest cur lines
    simp [parseMLGoF]

/-- C8.  When the validator rejects a token partway through a mainline,
the tree insertion stops at that ply: the tokens from the rejected one
onward have no effect on the tree, every node built for the legal prefix
remains (the insertion equals the insertion of exactly the prefix records)
and, being a total function, the builder raises nothing. -/
theorem c8_build_stops_at_rejected_token :
    (∀ (V : Validator) (t : MoveNode) (st st2 : V.State) (n : Nat) (w : Bool)
        (pre : List String) (m : String) (post : List String),
      stateAfter V st pre = some st2 → V.moveSan st2 m = none →
      addLineGo V t st n w (pre ++ m :: post) = addLineGo V t st n w pre) ∧
    (∀ (V : Validator) (t : MoveNode) (st : V.State) (n : Nat) (w : Bool)
        (moves : List String),
      addLineGo V t st n w moves = insertRecords t (recordsFrom V st n w moves)) := by
  constructor
  · intro V t st st2 n w pre
    induction pre generalizing t st n w with
    | nil =>
      intro m post hst hrej
      simp only [stateAfter, Option.some.injEq] at hst
      subst hst
      simp only [List.nil_append, addLineGo, hrej]
    | cons p ps ih =>
      intro m post hst hrej
      simp only [stateAfter] at hst
      cases hm : V.moveSan st p with
      | none => rw [hm] at hst; simp at hst
      | some r =>
        rw [hm] at hst
        cases r with
        | mk san stNext =>
          have hst2 : stateAfter V stNext ps = some st2 := hst
          simp only [List.cons_append, addLineGo, hm]
          cases hf : findChildByMove t.children san with
          | none =>
            simp only [hf, List.append_eq]
            rw [ih _ stNext _ _ m post hst2 hrej]
          | some child =>
            simp only [hf, List.append_eq]
            rw [ih _ stNext _ _ m post hst2 hrej]
  · intro V t st n w moves
    exact addLineGo_eq_insertRecords V moves t st n w

/-- Witness for C8: in the concrete table validator the line e4 xx9 e5
fails at the second token, and building it changes the tree exactly as far
as the legal prefix e4. -/
theorem c8_witness :
    addLineGo chessStub rootNode chessStub.init 1 true ["e4", "xx9", "e5"] =
      addLineGo chessStub rootNode chessStub.init 1 true ["e4"] ∧
    addLineGo chessStub rootNode chessStub.init 1 true ["e4", "xx9", "e5"] =
      insertRecords rootNode
        (recordsFrom chessStub chessStub.init 1 true ["e4", "xx9", "e5"]) := by
  constructor
  · exact c8_build_stops_at_rejected_token.1 chessStub rootNode chessStub.init
      (["e4"] : List String) 1 true ["e4"] "xx9" ["e5"] rfl rfl
  · exact c8_build_stops_at_rejected_token.2 chessStub rootNode chessStub.init 1 true
      ["e4", "xx9", "e5"]

/-! ## C2: completion exactly when every leaf is visited -/

theorem mem_addIfAbsent (l : List String) (x y : String) :
    x ∈ addIfAbsent l y ↔ x ∈ l ∨ x = y := by
  unfold addIfAbsent
  by_cases h : l.contains y
  · simp only [if_pos h]
    constructor
    · intro hx; exact Or.inl hx
    · rintro (hx | rfl)
      · exact hx
      · exact List.mem_of_elem_eq_true h
  · simp only [if_neg h]
    simp

/-- C2.  In a session over an index with at least one leaf, whose visited
leaf set and current target leaf lie inside the ordered leaf list, a line
advance sets isCompleted exactly when the visited leaf set it produces
equals the full leaf set; for every proper subset it stays false. -/
theorem c2_completed_iff_all_leaves_visited (V : Validator) (cfg : SessionCfg V)
    (s : SessionState V)
    (horder : cfg.index.leafHashesInOrder ≠ [])
    (hvis : ∀ h ∈ s.visitedLeafHashes, h ∈ cfg.index.leafHashesInOrder)
    (htgt : ∀ t, s.currentTargetLeafHash = some t → t ∈ cfg.index.leafHashesInOrder)
    (hc : s.isCompleted = false) :
    ((advanceToNextLineOrComplete cfg s).isCompleted = true ↔
      ∀ h, h ∈ cfg.index.leafHashesInOrder ↔
        h ∈ (advanceToNextLineOrComplete cfg s).visitedLeafHashes) := by
  have hv1 : ∀ h ∈ (advanceMarkVisited s).visitedLeafHashes,
      h ∈ cfg.index.leafHashesInOrder := by
    unfold advanceMarkVisited
    cases htg : s.currentTargetLeafHash with
    | none => exact hvis
    | some t =>
      simp only []
      intro h hh
      rcases (mem_addIfAbsent _ _ _).mp hh with h1 | rfl
      · exact hvis h h1
      · exact htgt h htg
  have hc1 : (advanceMarkVisited s).isCompleted = false := by
    unfold advanceMarkVisited
    cases s.currentTargetLeafHash with
    | none => exact hc
    | some t => simpa using hc
  unfold advanceToNextLineOrComplete
  generalize hgen : advanceMarkVisited s = s1 at hv1 hc1 ⊢
  unfold advanceCore
  cases hfind : getNextIncompleteLeafHash cfg s1 with
  | none =>
    simp only []
    unfold getNextIncompleteLeafHash at hfind
    rw [List.find?_eq_none] at hfind
    constructor
    · intro _ h
      constructor
      · intro hh
        have hx := hfind h hh
        cases hcc : s1.visitedLeafHashes.contains h with
        | false => exact absurd (by rw [hcc]; rfl) hx
        | true => exact List.mem_of_elem_eq_true hcc
      · intro hh
        exact hv1 h hh
    · intro _
      trivial
  | some nxt =>
    have hnxtmem : nxt ∈ cfg.index.leafHashesInOrder :=
      List.mem_of_find?_eq_some hfind
    have hnxtvis : nxt ∉ s1.visitedLeafHashes := by
      have hp := List.find?_some hfind
      intro hmem
      have hT : s1.visitedLeafHashes.contains nxt = true :=
        List.elem_eq_true_of_mem hmem
      rw [hT] at hp
      simp at hp
    by_cases hman : cfg.manualLineAdvance
    · simp only [if_pos hman, hc1]
      constructor
      · intro hfalse
        simp at hfalse
      · intro hall
        exact absurd ((hall nxt).mp hnxtmem) hnxtvis
    · simp only [if_neg hman, hc1]
      constructor
      · intro hfalse
        simp at hfalse
      · intro hall
        exact absurd ((hall nxt).mp hnxtmem) hnxtvis

/-- Witness for C2: finishing the second of two leaves completes the
session, and the completion test agrees with the visited set covering the
whole leaf list. -/
theorem c2_witness :
    (advanceToNextLineOrComplete c2cfg c2state).isCompleted = true ↔
      ∀ h, h ∈ c2cfg.index.leafHashesInOrder ↔
        h ∈ (advanceToNextLineOrComplete c2cfg c2state).visitedLeafHashes := by
  refine c2_completed_iff_all_leaves_visited chessStub c2cfg c2state
    (by decide) (by decide) ?_ (by decide)
  intro t ht
  injection ht with h
  subst h
  decide

/-! ## C4: rejections are atomic -/

/-- C4.  With every precondition guard passing and an expected next move
present, a drop the validator rejects returns false with the session state
untouched and no message set, and a legal drop whose SAN is neither known
at the current position key in the index nor equal to the expected next
move is undone on the validator and returns false with the state and
message equally untouched. -/
theorem c4_reject_atomic (V : Validator) (cfg : SessionCfg V) (s : SessionState V)
    (sourceSquare targetSquare : String) (e : String)
    (hcomp : s.isCompleted = false) (hauto : s.isAutoPlaying = false)
    (hpause : cfg.isPaused = false) (hawait : s.isAwaitingLineAdvance = false)
    (hline : isCurrentLineComplete cfg s = false)
    (huser : isUsersTurn cfg s = true)
    (hexp : (getCurrentTargetPlan cfg s).bind
      (fun p => getI p.sanPath (s.currentMoveIdx + 1)) = some e)
    (he : e ≠ "") :
    (V.moveCoord s.chess sourceSquare targetSquare "q" = none →
      onPieceDrop V cfg s sourceSquare targetSquare = (false, s)) ∧
    (∀ san st2,
      V.moveCoord s.chess sourceSquare targetSquare "q" = some (san, st2) →
      ((alistGet cfg.index.positionMoveLeafIndex
          (getPositionKey (s.currentMoveIdx + 1) (V.history s.chess))).map
        (fun m => (alistGet m san).getD [])).getD [] = [] →
      san ≠ e →
      V.undo st2 = s.chess →
      s.currFen = V.fen s.chess →
      onPieceDrop V cfg s sourceSquare targetSquare = (false, s)) := by
  obtain ⟨ch, cf, iAP, iC, iT, iAW, vNH, rLC, cMI, fMI, pSH, vLH, bCC, pNL, cTL,
    nEM, nMPK, rAM, mRM, sSL⟩ := s
  replace hcomp : iC = false := hcomp
  replace hauto : iAP = false := hauto
  replace hawait : iAW = false := hawait
  subst hcomp
  subst hauto
  subst hawait
  constructor
  · intro hmc
    unfold onPieceDrop
    simp [hpause, hline, huser, hexp, hmc, he]
  · intro san st2 hmc hlhm hne hundo hsync2
    replace hundo : V.undo st2 = ch := hundo
    replace hsync2 : cf = V.fen ch := hsync2
    subst hundo
    subst hsync2
    unfold onPieceDrop
    simp only [hpause, hline, huser, hexp, hmc]
    have hnb : (san != e) = true := by simp [hne]
    simp [he, hlhm, hnb]

/-- Witness for C4: in a session expecting d4, a drop with no legal move
between its squares is rejected without change, and the legal but out of
repertoire move e4 is undone and rejected without change. -/
theorem c4_witness :
    onPieceDrop chessStub c4cfg c4state "a1" "a5" = (false, c4state) ∧
    onPieceDrop chessStub c4cfg c4state "e2" "e4" = (false, c4state) := by
  have h := c4_reject_atomic chessStub c4cfg c4state "a1" "a5" "d4"
    (by decide) (by decide) (by decide) (by decide) (by decide) (by decide)
    (by decide) (by decide)
  have h2 := c4_reject_atomic chessStub c4cfg c4state "e2" "e4" "d4"
    (by decide) (by decide) (by decide) (by decide) (by decide) (by decide)
    (by decide) (by decide)
  constructor
  · exact h.1 (by decide)
  · exact h2.2 "e4" ["e4"] (by decide) (by decide) (by decide) (by decide)
      (by decide)

/-- Accepted runs between resets extend the tracking set without
duplicates and stay strictly below the candidate count. -/
theorem acceptsAllNoReset_nodup (n : Nat) :
    ∀ (attempts chosen : List String), chosen.Nodup →
      acceptsAllNoReset n chosen attempts = true →
      (chosen ++ attempts).Nodup ∧
        (attempts ≠ [] → chosen.length + attempts.length ≤ n - 1) := by
  intro attempts
  induction attempts with
  | nil =>
    intro chosen hnd _
    refine ⟨by simpa, by simp⟩
  | cons a rest ih =>
    intro chosen hnd hrun
    unfold acceptsAllNoReset at hrun
    unfold branchCycleStep at hrun
    by_cases hc : chosen.contains a
    · rw [if_pos hc] at hrun
      simp at hrun
    · rw [if_neg hc] at hrun
      by_cases hlen : n ≤ (chosen ++ [a]).length
      · rw [if_pos hlen] at hrun
        simp at hrun
      · rw [if_neg hlen] at hrun
        have hna : a ∉ chosen := fun hmem => hc (List.elem_eq_true_of_mem hmem)
        have hnd2 : (chosen ++ [a]).Nodup := by
          rw [List.nodup_append]
          refine ⟨hnd, List.nodup_singleton a, ?_⟩
          intro x hx
          simp only [List.mem_singleton]
          intro hxa
          exact hna (hxa ▸ hx)
        obtain ⟨hnd3, hbound⟩ := ih (chosen ++ [a]) hnd2 hrun
        constructor
        · have : chosen ++ a :: rest = (chosen ++ [a]) ++ rest := by simp
          rw [this]
          exact hnd3
        · intro _
          simp only [List.length_append, List.length_singleton] at hlen hbound
          cases hrest : rest with
          | nil =>
            simp only [List.length_cons, List.length_nil]
            omega
          | cons b bs =>
            have := hbound (by simp [hrest])
            rw [hrest] at *
            simp only [List.length_cons] at *
            omega

/-- A SAN already in the tracking list is rejected by the branch cycle
step with the tracking returned unchanged. -/
theorem branchCycleStep_mem (n : Nat) (chosen : List String) (san : String)
    (hmem : san ∈ chosen) : branchCycleStep n chosen san = (false, some chosen) := by
  unfold branchCycleStep
  rw [if_pos (List.elem_eq_true_of_mem hmem)]

/-- C3.  At a branching position with more than one recorded candidate
move: a SAN already chosen during the current cycle is rejected leaving
the tracking unchanged (and, in the session, the move is undone and the
already chosen message is set); a not yet chosen SAN is recorded; the
tracking is dropped exactly when every candidate has been chosen at least
once; and every run of accepted SANs between two resets is pairwise
distinct with fewer than n accepted choices. -/
theorem c3_branch_cycle_distinct (n : Nat) (hn : 1 < n) :
    (∀ (chosen : List String) (san : String), san ∈ chosen →
      branchCycleStep n chosen san = (false, some chosen)) ∧
    (∀ (chosen : List String) (san : String), san ∉ chosen →
      (chosen ++ [san]).length < n →
      branchCycleStep n chosen san = (true, some (chosen ++ [san]))) ∧
    (∀ (keys chosen : List String) (san : String),
      keys.Nodup → keys.length = n → chosen.Nodup → (∀ x ∈ chosen, x ∈ keys) →
      san ∈ keys → san ∉ chosen →
      ((branchCycleStep n chosen san).2 = none ↔ ∀ k ∈ keys, k ∈ chosen ++ [san])) ∧
    (∀ attempts : List String, acceptsAllNoReset n [] attempts = true →
      attempts.Nodup ∧ attempts.length ≤ n - 1) ∧
    (∀ (V : Validator) (cfg : SessionCfg V) (s : SessionState V)
        (sourceSquare targetSquare e san : String) (st2 : V.State)
        (m : List (String × List String)),
      s.isCompleted = false → s.isAutoPlaying = false → cfg.isPaused = false →
      s.isAwaitingLineAdvance = false → isCurrentLineComplete cfg s = false →
      isUsersTurn cfg s = true →
      (getCurrentTargetPlan cfg s).bind
        (fun p => getI p.sanPath (s.currentMoveIdx + 1)) = some e →
      e ≠ "" →
      V.moveCoord s.chess sourceSquare targetSquare "q" = some (san, st2) →
      alistGet cfg.index.positionMoveLeafIndex
        (getPositionKey (s.currentMoveIdx + 1) (V.history s.chess)) = some m →
      1 < m.length →
      (alistGet m san).getD [] ≠ [] →
      san ∈ (alistGet s.branchCycleChoices
        (getPositionKey (s.currentMoveIdx + 1) (V.history s.chess))).getD [] →
      V.undo st2 = s.chess →
      s.currFen = V.fen s.chess →
      onPieceDrop V cfg s sourceSquare targetSquare =
        (false, { s with moveRejectionMessage := some alreadyChosenMessage })) := by
  refine ⟨?_, ?_, ?_, ?_, ?_⟩
  · intro chosen san hmem
    exact branchCycleStep_mem n chosen san hmem
  · intro chosen san hmem hlen
    unfold branchCycleStep
    have hc : chosen.contains san = false := by
      cases hcc : chosen.contains san with
      | false => rfl
      | true => exact absurd (List.mem_of_elem_eq_true hcc) hmem
    rw [hc]
    simp only [Bool.false_eq_true, if_false]
    rw [if_neg (by omega)]
  · intro keys chosen san hknd hklen hcnd hsub hsk hsc
    unfold branchCycleStep
    have hc : chosen.contains san = false := by
      cases hcc : chosen.contains san with
      | false => rfl
      | true => exact absurd (List.mem_of_elem_eq_true hcc) hsc
    rw [hc]
    simp only [Bool.false_eq_true, if_false]
    have hnd2 : (chosen ++ [san]).Nodup := by
      rw [List.nodup_append]
      refine ⟨hcnd, List.nodup_singleton san, ?_⟩
      intro x hx
      simp only [List.mem_singleton]
      intro hxa
      exact hsc (hxa ▸ hx)
    have hsub2 : (chosen ++ [san]) ⊆ keys := by
      intro x hx
      rcases List.mem_append.mp hx with h | h
      · exact hsub x h
      · rw [List.mem_singleton.mp h]
        exact hsk
    constructor
    · intro hnone
      by_cases hge : n ≤ (chosen ++ [san]).length
      · have hsp : List.Subperm (chosen ++ [san]) keys := hnd2.subperm hsub2
        have hperm : (chosen ++ [san]).Perm keys := by
          apply List.Subperm.perm_of_length_le hsp
          omega
        intro k hk
        exact hperm.mem_iff.mpr hk
      · rw [if_neg hge] at hnone
        simp at hnone
    · intro hall
      have hsubk : keys ⊆ chosen ++ [san] := fun k hk => hall k hk
      have hsp : List.Subperm keys (chosen ++ [san]) := hknd.subperm hsubk
      have := hsp.length_le
      rw [if_pos (by omega)]
  · intro attempts hrun
    obtain ⟨hnd, hbound⟩ := acceptsAllNoReset_nodup n attempts [] (by simp) hrun
    refine ⟨by simpa using hnd, ?_⟩
    by_cases hat : attempts = []
    · subst hat; simp
    · simpa using hbound hat
  · intro V cfg s sourceSquare targetSquare e san st2 m hcomp hauto hpause hawait
      hline huser hexp he hmc hm hsize hknown hchosen hundo hsync
    obtain ⟨ch, cf, iAP, iC, iT, iAW, vNH, rLC, cMI, fMI, pSH, vLH, bCC, pNL, cTL,
      nEM, nMPK, rAM, mRM, sSL⟩ := s
    replace hcomp : iC = false := hcomp
    replace hauto : iAP = false := hauto
    replace hawait : iAW = false := hawait
    replace hsync : cf = V.fen ch := hsync
    replace hundo : V.undo st2 = ch := hundo
    subst hcomp
    subst hauto
    subst hawait
    subst hsync
    subst hundo
    have hc1 : decide ((((alistGet m san).getD []).length = 0)) = false := by
      simp only [decide_eq_false_iff_not]
      intro h0
      exact hknown (List.length_eq_zero.mp h0)
    unfold onPieceDrop
    simp only [hpause, hline, huser, hexp, hmc, hm, Option.map_some,
      Option.getD_some, hc1, Bool.false_and, Bool.false_eq_true, if_false,
      hsize, if_true, branchCycleStep_mem _ _ _ hchosen]
    simp [he]
    intro h0 _
    exact absurd h0 hknown

/-- Witness for C3 at a two candidate branch: a repeated SAN is rejected
keeping the tracking, a fresh SAN is recorded, the tracking resets exactly
when both candidates are covered, and an accepted run is distinct and
short. -/
theorem c3_witness :
    1 < 2 ∧
    branchCycleStep 2 ["e4"] "e4" = (false, some ["e4"]) ∧
    branchCycleStep 2 [] "e4" = (true, some ["e4"]) ∧
    ((branchCycleStep 2 ["e4"] "d4").2 = none ↔
      ∀ k ∈ ["e4", "d4"], k ∈ ["e4"] ++ ["d4"]) ∧
    (["e4"].Nodup ∧ ["e4"].length ≤ 2 - 1) := by
  have h := c3_branch_cycle_distinct 2 (by decide)
  refine ⟨by decide, h.1 ["e4"] "e4" (by decide),
    h.2.1 [] "e4" (by decide) (by decide),
    h.2.2.1 ["e4", "d4"] ["e4"] "d4" (by decide) (by decide) (by decide)
      (by decide) (by decide) (by decide),
    h.2.2.2.1 ["e4"] (by decide)⟩

/-! ## C10: the human promotion piece is always the queen -/

/-- C10.  Every human drop is attempted on the validator with the
promotion piece fixed to the queen: whenever onPieceDrop accepts a drop
there is a legal queen coordinate move between the two squares, and when
the current position has no index entry and the queen move's SAN differs
from the expected next move, the drop is rejected, so an expected
underpromotion can never be matched by human input. -/
theorem c10_promotion_always_queen :
    (∀ (V : Validator) (cfg : SessionCfg V) (s : SessionState V)
        (sourceSquare targetSquare : String),
      (onPieceDrop V cfg s sourceSquare targetSquare).1 = true →
      ∃ san st2, V.moveCoord s.chess sourceSquare targetSquare "q" =
        some (san, st2)) ∧
    (∀ (V : Validator) (cfg : SessionCfg V) (s : SessionState V)
        (sourceSquare targetSquare e san : String) (st2 : V.State),
      s.isCompleted = false → s.isAutoPlaying = false → cfg.isPaused = false →
      s.isAwaitingLineAdvance = false → isCurrentLineComplete cfg s = false →
      isUsersTurn cfg s = true →
      (getCurrentTargetPlan cfg s).bind
        (fun p => getI p.sanPath (s.currentMoveIdx + 1)) = some e →
      e ≠ "" →
      V.moveCoord s.chess sourceSquare targetSquare "q" = some (san, st2) →
      alistGet cfg.index.positionMoveLeafIndex
        (getPositionKey (s.currentMoveIdx + 1) (V.history s.chess)) = none →
      san ≠ e →
      (onPieceDrop V cfg s sourceSquare targetSquare).1 = false) := by
  constructor
  · intro V cfg s sourceSquare targetSquare h
    unfold onPieceDrop at h
    dsimp only at h
    by_cases h1 : s.isCompleted = true
    · rw [if_pos h1] at h; exact Bool.noConfusion h
    rw [if_neg h1] at h
    by_cases h2 : s.isAutoPlaying = true
    · rw [if_pos h2] at h; exact Bool.noConfusion h
    rw [if_neg h2] at h
    by_cases h3 : cfg.isPaused = true
    · rw [if_pos h3] at h; exact Bool.noConfusion h
    rw [if_neg h3] at h
    by_cases h4 : s.isAwaitingLineAdvance = true
    · rw [if_pos h4] at h; exact Bool.noConfusion h
    rw [if_neg h4] at h
    by_cases h5 : isCurrentLineComplete cfg s = true
    · rw [if_pos h5] at h; exact Bool.noConfusion h
    rw [if_neg h5] at h
    by_cases h6 : (!isUsersTurn cfg s) = true
    · rw [if_pos h6] at h; exact Bool.noConfusion h
    rw [if_neg h6] at h
    cases hplan : (getCurrentTargetPlan cfg s).bind
        (fun p => getI p.sanPath (s.currentMoveIdx + 1)) with
    | none =>
      simp only [hplan] at h
      exact Bool.noConfusion h
    | some e2 =>
      simp only [hplan] at h
      by_cases hee : e2 = ""
      · rw [if_pos hee] at h; exact Bool.noConfusion h
      rw [if_neg hee] at h
      cases hmc : V.moveCoord s.chess sourceSquare targetSquare "q" with
      | none =>
        simp only [hmc] at h
        exact Bool.noConfusion h
      | some p => exact ⟨p.1, p.2, rfl⟩
  · intro V cfg s sourceSquare targetSquare e san st2 hcomp hauto hpause hawait
      hline huser hexp he hmc hm0 hne
    obtain ⟨ch, cf, iAP, iC, iT, iAW, vNH, rLC, cMI, fMI, pSH, vLH, bCC, pNL, cTL,
      nEM, nMPK, rAM, mRM, sSL⟩ := s
    replace hcomp : iC = false := hcomp
    replace hauto : iAP = false := hauto
    replace hawait : iAW = false := hawait
    subst hcomp
    subst hauto
    subst hawait
    unfold onPieceDrop
    simp only [hpause, hline, huser, hexp, hmc]
    have hnb : (san != e) = true := by simp [hne]
    have hlhm : ((alistGet cfg.index.positionMoveLeafIndex
        (getPositionKey (cMI + 1) (V.history ch))).map
          (fun m => (alistGet m san).getD [])).getD [] = ([] : List String) := by
      rw [hm0]
      rfl
    simp [he, hlhm, hnb]

/-- Witness for C10: a repertoire line expecting the underpromotion e8=N
is never matched, because the drop from e7 to e8 is always attempted as a
queen promotion yielding e8=Q, which is rejected. -/
theorem c10_witness :
    (onPieceDrop chessStub c10cfg c10state "e7" "e8").1 = false := by
  exact c10_promotion_always_queen.2 chessStub c10cfg c10state "e7" "e8"
    "e8=N" "e8=Q" ["e8=Q"] (by decide) (by decide) (by decide) (by decide)
    (by decide) (by decide) (by decide) (by decide) (by decide) (by decide)
    (by decide)

/-! ## C5: auto played plies when skipping to the first branch -/

/-- Replaying one more token composes with the replay of the prefix. -/
theorem stateAfter_snoc (V : Validator) (st : V.State) (l : List String)
    (m : String) :
    stateAfter V st (l ++ [m]) =
      (stateAfter V st l).bind (fun st2 => (V.moveSan st2 m).map Prod.snd) := by
  induction l generalizing st with
  | nil =>
    simp only [List.nil_append, stateAfter]
    cases hms : V.moveSan st m with
    | none => simp [hms]
    | some pr =>
      obtain ⟨sanx, st2⟩ := pr
      simp [hms]
  | cons a as ih =>
    simp only [List.cons_append, stateAfter]
    cases hms : V.moveSan st a with
    | none => rfl
    | some pr =>
      obtain ⟨sanx, st2⟩ := pr
      exact ih st2

/-- Marking a visited node hash only touches the visited node set. -/
theorem markVisitedNodeHash_cTL {V : Validator} (s : SessionState V)
    (nh : Option String) :
    (markVisitedNodeHash s nh).currentTargetLeafHash = s.currentTargetLeafHash := by
  rcases nh with _ | h
  · rfl
  · by_cases hh : h = ""
    · simp [markVisitedNodeHash, hh]
    · simp [markVisitedNodeHash, hh]

/-- Marking a visited node hash keeps the current move index. -/
theorem markVisitedNodeHash_cMI {V : Validator} (s : SessionState V)
    (nh : Option String) :
    (markVisitedNodeHash s nh).currentMoveIdx = s.currentMoveIdx := by
  rcases nh with _ | h
  · rfl
  · by_cases hh : h = ""
    · simp [markVisitedNodeHash, hh]
    · simp [markVisitedNodeHash, hh]

/-- Marking a visited node hash keeps the played history. -/
theorem markVisitedNodeHash_pSH {V : Validator} (s : SessionState V)
    (nh : Option String) :
    (markVisitedNodeHash s nh).playedSanHistory = s.playedSanHistory := by
  rcases nh with _ | h
  · rfl
  · by_cases hh : h = ""
    · simp [markVisitedNodeHash, hh]
    · simp [markVisitedNodeHash, hh]

/-- Marking a visited node hash keeps the board state. -/
theorem markVisitedNodeHash_chess {V : Validator} (s : SessionState V)
    (nh : Option String) :
    (markVisitedNodeHash s nh).chess = s.chess := by
  rcases nh with _ | h
  · rfl
  · by_cases hh : h = ""
    · simp [markVisitedNodeHash, hh]
    · simp [markVisitedNodeHash, hh]

/-- Marking a visited node hash keeps the auto playing flag. -/
theorem markVisitedNodeHash_iAP {V : Validator} (s : SessionState V)
    (nh : Option String) :
    (markVisitedNodeHash s nh).isAutoPlaying = s.isAutoPlaying := by
  rcases nh with _ | h
  · rfl
  · by_cases hh : h = ""
    · simp [markVisitedNodeHash, hh]
    · simp [markVisitedNodeHash, hh]

/-- One non randomized auto play step: with a target plan whose next token
is legal and nonempty, playExpectedNextMove plays exactly that token,
advances the move index by one, appends the token to the history and keeps
the target leaf and the auto playing flag. -/
theorem playExpectedNextMove_step (V : Validator) (cfg : SessionCfg V)
    (lh : String) (p : LeafPlan) (s : SessionState V) (j : Nat) (mj sanj : String)
    (st2 : V.State)
    (hrand : cfg.randomizeOpponentBranchMoves = false)
    (hp : alistGet cfg.index.leafPlansByHash lh = some p)
    (hcTL : s.currentTargetLeafHash = some lh)
    (hcMI : s.currentMoveIdx = (j : Int) - 1)
    (hpSH : s.playedSanHistory = p.sanPath.take j)
    (hj : j < p.sanPath.length)
    (hmj : p.sanPath.get? j = some mj)
    (hmjne : mj ≠ "")
    (hms : V.moveSan s.chess mj = some (sanj, st2)) :
    ∃ s6, playExpectedNextMove V cfg s = some s6 ∧
      s6.currentTargetLeafHash = some lh ∧
      s6.currentMoveIdx = (j : Int) ∧
      s6.playedSanHistory = p.sanPath.take (j + 1) ∧
      s6.chess = st2 ∧
      s6.isAutoPlaying = s.isAutoPlaying := by
  obtain ⟨ch, cf, iAP, iC, iT, iAW, vNH, rLC, cMI, fMI, pSH, vLH, bCC, pNL, cTL,
    nEM, nMPK, rAM, mRM, sSL⟩ := s
  replace hcTL : cTL = some lh := hcTL
  replace hcMI : cMI = (j : Int) - 1 := hcMI
  replace hpSH : pSH = p.sanPath.take j := hpSH
  replace hms : V.moveSan ch mj = some (sanj, st2) := hms
  subst hcTL
  subst hcMI
  subst hpSH
  have hget : p.sanPath.get ⟨j, hj⟩ = mj := by
    rw [List.get?_eq_get hj] at hmj
    exact Option.some.inj hmj
  have hplan : alistGet cfg.index.leafPlansByHash lh = some p := hp
  have hgetI : getI p.sanPath (((j : Int) - 1) + 1) = some mj := by
    rw [show ((j : Int) - 1) + 1 = (j : Int) from by ring]
    unfold getI
    rw [if_neg (by omega)]
    simpa using hmj
  unfold playExpectedNextMove
  dsimp only
  simp only [getCurrentTargetPlan, Option.some_bind, hp, hgetI]
  rw [if_neg hmjne]
  have htake : (p.sanPath.take j).take (((j : Int) - 1) + 1).toNat ++ [mj] =
      p.sanPath.take (j + 1) := by
    rw [show ((j : Int) - 1) + 1 = (j : Int) from by ring]
    simp only [Int.toNat_natCast, List.take_take, min_self]
    rw [← hget, ← List.concat_eq_append]
    exact List.take_concat_get p.sanPath j hj
  cases halist : alistGet cfg.index.positionMoveLeafIndex
      (getPositionKey (((j : Int) - 1) + 1) (V.history ch)) with
  | none =>
    simp only [halist, hms]
    refine ⟨_, rfl, ?_, ?_, ?_, ?_, ?_⟩
    · simp [syncNextMoveState, markVisitedNodeHash_cTL]
    · simp [syncNextMoveState, markVisitedNodeHash_cMI]
    · simp only [syncNextMoveState, markVisitedNodeHash_pSH]
      exact htake
    · simp [syncNextMoveState, markVisitedNodeHash_chess]
    · simp [syncNextMoveState, markVisitedNodeHash_iAP]
  | some mm =>
    simp only [halist, hrand, Bool.false_and, Bool.false_eq_true, if_false,
      hms]
    refine ⟨_, rfl, ?_, ?_, ?_, ?_, ?_⟩
    · simp [syncNextMoveState, markVisitedNodeHash_cTL]
    · simp [syncNextMoveState, markVisitedNodeHash_cMI]
    · simp only [syncNextMoveState, markVisitedNodeHash_pSH]
      exact htake
    · simp [syncNextMoveState, markVisitedNodeHash_chess]
    · simp [syncNextMoveState, markVisitedNodeHash_iAP]

/-- Running k auto plies on a session aligned with its target plan plays
exactly the next k tokens of the plan: the move index advances by k, the
played history is the corresponding prefix of the plan and the flag is
lowered at the end, provided k stops short of the end of the line. -/
theorem runAutoMoves_plays (V : Validator) (cfg : SessionCfg V) (lh : String)
    (p : LeafPlan)
    (hpz : cfg.isPaused = false)
    (hrand : cfg.randomizeOpponentBranchMoves = false)
    (hp : alistGet cfg.index.leafPlansByHash lh = some p)
    (hne : ∀ m ∈ p.sanPath, m ≠ "")
    (hstep : ∀ j : Nat, j < p.sanPath.length →
      ((stateAfter V V.init (p.sanPath.take j)).bind
        (fun st => (p.sanPath.get? j).bind (fun m => V.moveSan st m))).isSome
        = true) :
    ∀ (k j : Nat) (s : SessionState V),
      j + k < p.sanPath.length →
      s.currentTargetLeafHash = some lh →
      s.currentMoveIdx = (j : Int) - 1 →
      s.playedSanHistory = p.sanPath.take j →
      stateAfter V V.init (p.sanPath.take j) = some s.chess →
      (runAutoMoves V cfg k s).currentTargetLeafHash = some lh ∧
      (runAutoMoves V cfg k s).currentMoveIdx = (j : Int) + k - 1 ∧
      (runAutoMoves V cfg k s).playedSanHistory = p.sanPath.take (j + k) ∧
      stateAfter V V.init (p.sanPath.take (j + k)) =
        some (runAutoMoves V cfg k s).chess ∧
      (runAutoMoves V cfg k s).isAutoPlaying = false := by
  intro k
  induction k with
  | zero =>
    intro j s hlen hcTL hcMI hpSH hsa
    have hred : runAutoMoves V cfg 0 s = { s with isAutoPlaying := false } := by
      unfold runAutoMoves
      simp [hpz]
    rw [hred]
    refine ⟨hcTL, ?_, ?_, ?_, rfl⟩
    · show s.currentMoveIdx = (j : Int) + ((0 : Nat) : Int) - 1
      rw [hcMI]
      push_cast
      ring
    · exact hpSH
    · exact hsa
  | succ k ih =>
    intro j s hlen hcTL hcMI hpSH hsa
    have hj : j < p.sanPath.length := by omega
    have hmj : p.sanPath.get? j = some (p.sanPath.get ⟨j, hj⟩) :=
      List.get?_eq_get hj
    obtain ⟨mj, hmj⟩ : ∃ mj, p.sanPath.get? j = some mj := ⟨_, hmj⟩
    have hmem : mj ∈ p.sanPath := List.get?_mem hmj
    have hmjne : mj ≠ "" := hne mj hmem
    have hms := hstep j hj
    rw [hsa, hmj] at hms
    simp only [Option.some_bind] at hms
    rw [Option.isSome_iff_exists] at hms
    obtain ⟨pr, hms⟩ := hms
    obtain ⟨sanj, st2⟩ := pr
    have hpm := playExpectedNextMove_step V cfg lh p
      { s with isAutoPlaying := true } j mj sanj st2 hrand hp hcTL hcMI hpSH
      hj hmj hmjne hms
    obtain ⟨s6, hpm, hcTL6, hcMI6, hpSH6, hchess6, hiAP6⟩ := hpm
    have hsa2 : stateAfter V V.init (p.sanPath.take (j + 1)) = some st2 := by
      have hsp : p.sanPath.take (j + 1) = p.sanPath.take j ++ [mj] := by
        have hget : p.sanPath.get ⟨j, hj⟩ = mj := by
          rw [List.get?_eq_get hj] at hmj
          exact Option.some.inj hmj
        rw [← hget, ← List.concat_eq_append]
        exact (List.take_concat_get p.sanPath j hj).symm
      rw [hsp, stateAfter_snoc, hsa]
      simp [hms]
    have hncomp : isCurrentLineComplete cfg s6 = false := by
      unfold isCurrentLineComplete
      have hplan6 : getCurrentTargetPlan cfg s6 = some p := by
        unfold getCurrentTargetPlan
        rw [hcTL6]
        exact hp
      simp only [hplan6]
      rw [hcMI6]
      have hlt : ¬((p.sanPath.length : Int) - 1 ≤ (j : Int)) := by
        push_cast
        omega
      simp [hlt]
    have hred : runAutoMoves V cfg (k + 1) s = runAutoMoves V cfg k s6 := by
      conv_lhs => unfold runAutoMoves
      simp only [hpz, Bool.false_eq_true, if_false, hpm, hncomp]
    rw [hred]
    have hih := ih (j + 1) s6 (by omega) hcTL6
      (by rw [hcMI6]; push_cast; ring) hpSH6
      (by rw [hchess6]; exact hsa2)
    obtain ⟨a1, a2, a3, a4, a5⟩ := hih
    refine ⟨a1, ?_, ?_, ?_, a5⟩
    · rw [a2]
      push_cast
      ring
    · rw [a3]
      congr 1
      omega
    · rw [show j + (k + 1) = (j + 1) + k from by omega]
      exact a4

/-- Starting a leaf with a nonempty plan auto plays exactly the computed
number of plies: the skip base, plus one extra ply when the ply reached
after skipping is not the human turn, as long as that count stays short of
the line's length. -/
theorem startLeaf_autoplays (V : Validator) (cfg : SessionCfg V) (lh : String)
    (p : LeafPlan) (s : SessionState V) (base ap : Nat)
    (hpz : cfg.isPaused = false)
    (hrand : cfg.randomizeOpponentBranchMoves = false)
    (hp : alistGet cfg.index.leafPlansByHash lh = some p)
    (hne : ∀ m ∈ p.sanPath, m ≠ "")
    (hstep : ∀ j : Nat, j < p.sanPath.length →
      ((stateAfter V V.init (p.sanPath.take j)).bind
        (fun st => (p.sanPath.get? j).bind (fun m => V.moveSan st m))).isSome
        = true)
    (hlen0 : ¬p.sanPath.length = 0)
    (hbase : base = if cfg.isSkipping then min cfg.skipPlies p.sanPath.length
      else 0)
    (hap : ap = if base < p.sanPath.length then
      (if (decide (base % 2 = 0)) == cfg.isPlayingWhite then base else base + 1)
      else base)
    (hap0 : 0 < ap)
    (haplt : ap < p.sanPath.length) :
    (startLeaf V cfg lh s).currentTargetLeafHash = some lh ∧
    (startLeaf V cfg lh s).currentMoveIdx = (ap : Int) - 1 ∧
    (startLeaf V cfg lh s).playedSanHistory = p.sanPath.take ap ∧
    (startLeaf V cfg lh s).isAutoPlaying = false := by
  have hredS : startLeaf V cfg lh s =
      runAutoMoves V cfg ap (syncNextMoveState V cfg
        { clearScheduledActions s with
            currentTargetLeafHash := some lh
            currentMoveIdx := -1
            furthestMoveIdx := -1
            playedSanHistory := []
            isCompleted := false
            isTransitioningBetweenLines := false
            moveRejectionMessage := none
            chess := V.init
            currFen := V.fen V.init } (-1)) := by
    conv_lhs => unfold startLeaf
    simp only [hp]
    rw [if_neg hlen0]
    rw [← hbase, ← hap]
    rw [if_pos hap0]
  rw [hredS]
  have hrun := runAutoMoves_plays V cfg lh p hpz hrand hp hne hstep ap 0
    (syncNextMoveState V cfg
      { clearScheduledActions s with
          currentTargetLeafHash := some lh
          currentMoveIdx := -1
          furthestMoveIdx := -1
          playedSanHistory := []
          isCompleted := false
          isTransitioningBetweenLines := false
          moveRejectionMessage := none
          chess := V.init
          currFen := V.fen V.init } (-1))
    (by omega)
    (by simp [clearScheduledActions, syncNextMoveState])
    (by simp [clearScheduledActions, syncNextMoveState])
    (by simp [clearScheduledActions, syncNextMoveState])
    (by simp [clearScheduledActions, syncNextMoveState, stateAfter])
  obtain ⟨a1, a2, a3, _, a5⟩ := hrun
  refine ⟨a1, ?_, ?_, a5⟩
  · rw [a2]
    push_cast
    ring
  · rw [a3]
    congr 1
    omega

/-- C5 (as amended).  With the skip option enabled, starting a leaf auto
plays base = min(skipPlies, line length) plies where skipPlies is the
configured count (the source sets it to the token count before the first
parenthesis minus one), plus one extra ply when the ply reached after
skipping is not the human turn, whenever that total stays short of the
line's length: the move index lands one short of the auto played count,
and the played history is exactly that prefix of the plan. -/
theorem c5_skip_autoplay (V : Validator) (cfg : SessionCfg V) (lh : String)
    (p : LeafPlan) (s : SessionState V) (base ap : Nat)
    (hpz : cfg.isPaused = false)
    (hrand : cfg.randomizeOpponentBranchMoves = false)
    (hp : alistGet cfg.index.leafPlansByHash lh = some p)
    (hne : ∀ m ∈ p.sanPath, m ≠ "")
    (hstep : ∀ j : Nat, j < p.sanPath.length →
      ((stateAfter V V.init (p.sanPath.take j)).bind
        (fun st => (p.sanPath.get? j).bind (fun m => V.moveSan st m))).isSome
        = true)
    (hlen0 : ¬p.sanPath.length = 0)
    (hbase : base = if cfg.isSkipping then min cfg.skipPlies p.sanPath.length
      else 0)
    (hap : ap = if base < p.sanPath.length then
      (if (decide (base % 2 = 0)) == cfg.isPlayingWhite then base else base + 1)
      else base)
    (hap0 : 0 < ap)
    (haplt : ap < p.sanPath.length) :
    (startLeaf V cfg lh s).currentTargetLeafHash = some lh ∧
    (startLeaf V cfg lh s).currentMoveIdx = (ap : Int) - 1 ∧
    (startLeaf V cfg lh s).playedSanHistory = p.sanPath.take ap ∧
    (startLeaf V cfg lh s).isAutoPlaying = false :=
  startLeaf_autoplays V cfg lh p s base ap hpz hrand hp hne hstep hlen0 hbase
    hap hap0 haplt

/-- Counterexample to C5 as stated: on the spec's example text the skip
count the source computes is 7, not 6, and starting the first leaf (the
parsed variation line) as Black auto plays the seven plies e4 e5 Nf3 Nc6
Bb5 a6 Ba4, not the six plies 0 to 5 the spec's example promises. -/
theorem c5_counterexample :
    findNumMovesToFirstBranch exText = 7 ∧
    moveTextToMainlines exText =
      ["e4 e5 Nf3 Nc6 Bb5 a6 Ba4 Nf6 O-O Nxe4 Re1 Nd6",
       "e4 e5 Nf3 Nc6 Bb5 a6 Ba4 b5 Bb3 Nf6 O-O"] ∧
    (startLeaf chessStub c5cfg "hA" (blankState chessStub)).playedSanHistory =
      ["e4", "e5", "Nf3", "Nc6", "Bb5", "a6", "Ba4"] ∧
    (startLeaf chessStub c5cfg "hA" (blankState chessStub)).playedSanHistory ≠
      ["e4", "e5", "Nf3", "Nc6", "Bb5", "a6"] := by
  have h := startLeaf_autoplays chessStub c5cfg "hA" ⟨"hA", lineA, ["hA"]⟩
    (blankState chessStub) 7 7 (by decide) (by decide) (by decide) (by decide)
    (by decide) (by decide) (by decide) (by decide) (by decide) (by decide)
  obtain ⟨-, -, h3, -⟩ := h
  refine ⟨by decide, by decide, ?_, ?_⟩
  · rw [h3]
    decide
  · rw [h3]
    decide

/-- Witness for C5: on the example configuration for a human playing
Black, the skip count 7 is odd so no extra ply is added, and starting the
first leaf auto plays exactly 7 plies of its plan. -/
theorem c5_witness :
    (startLeaf chessStub c5cfg "hA" (blankState chessStub)).currentTargetLeafHash
      = some "hA" ∧
    (startLeaf chessStub c5cfg "hA" (blankState chessStub)).currentMoveIdx =
      ((7 : Nat) : Int) - 1 ∧
    (startLeaf chessStub c5cfg "hA" (blankState chessStub)).playedSanHistory =
      lineA.take 7 ∧
    (startLeaf chessStub c5cfg "hA" (blankState chessStub)).isAutoPlaying =
      false :=
  c5_skip_autoplay chessStub c5cfg "hA" ⟨"hA", lineA, ["hA"]⟩
    (blankState chessStub) 7 7 (by decide) (by decide) (by decide) (by decide)
    (by decide) (by decide) (by decide) (by decide) (by decide) (by decide)

theorem nodeCount_node (m : String) (n : Nat) (w : Bool) (f : String)
    (cs : List MoveNode) (k : Nat) :
    nodeCount (.node m n w f cs k) = 1 + (cs.map nodeCount).sum := by
  rw [nodeCount]
  congr 1
  rw [List.attach_map_coe]

theorem nodeCount_pos (t : MoveNode) : 1 ≤ nodeCount t := by
  cases t with
  | node m n w f cs k =>
    rw [nodeCount_node]
    omega

theorem leafPairs_leaf (m : String) (n : Nat) (w : Bool) (f : String) (k : Nat) :
    leafPairs (.node m n w f [] k) = [([], [])] := by
  simp only [leafPairs]

theorem leafPairs_children (m : String) (n : Nat) (w : Bool) (f : String)
    (cs : List MoveNode) (k : Nat) (hcs : cs ≠ []) :
    leafPairs (.node m n w f cs k) =
      (cs.map (fun c2 =>
        (leafPairs c2).map (fun pr =>
          (c2.move :: pr.1, hashMoveNode c2 :: pr.2)))).flatten := by
  match cs, hcs with
  | c :: cs2, _ =>
    simp only [leafPairs]
    congr 1
    simp [List.attach_map_coe]

/-- Every move tree has at least one leaf path. -/
theorem leafPairs_ne_nil (t : MoveNode) : leafPairs t ≠ [] := by
  suffices H : ∀ (n : Nat) (t : MoveNode), sizeOf t ≤ n → leafPairs t ≠ [] from
    H (sizeOf t) t le_rfl
  intro n
  induction n with
  | zero =>
    intro t ht
    cases t with
    | node m nn w f cs k =>
      simp only [MoveNode.node.sizeOf_spec] at ht
      omega
  | succ n ih =>
    intro t ht
    cases t with
    | node m nn w f cs k =>
      cases cs with
      | nil =>
        rw [leafPairs_leaf]
        simp
      | cons c cs2 =>
        rw [leafPairs_children _ _ _ _ _ _ (by simp)]
        intro hempty
        simp only [MoveNode.node.sizeOf_spec, List.cons.sizeOf_spec] at ht
        simp only [List.map_cons, List.flatten_cons, List.append_eq_nil,
          List.map_eq_nil_iff] at hempty
        exact ih c (by omega) hempty.1

/-- Inserting records never changes the move of the root node. -/
theorem insertRecords_move (t : MoveNode) (rs : List MoveRec) :
    (insertRecords t rs).move = t.move := by
  cases rs with
  | nil => rfl
  | cons r rs2 =>
    cases t with
    | node m n w f cs k =>
      simp only [insertRecords]
      dsimp only [MoveNode.children]
      cases hf : findChildByMove cs r.san with
      | none => rfl
      | some c => rfl

/-- Inserting records never changes the hash of the root node. -/
theorem insertRecords_hash (t : MoveNode) (rs : List MoveRec) :
    hashMoveNode (insertRecords t rs) = hashMoveNode t := by
  cases rs with
  | nil => rfl
  | cons r rs2 =>
    cases t with
    | node m n w f cs k =>
      simp only [insertRecords]
      dsimp only [MoveNode.children]
      cases hf : findChildByMove cs r.san with
      | none => rfl
      | some c => rfl

/-- A successful child lookup splits the sibling list, and replacing the
first match rewrites exactly that position. -/
theorem findChildByMove_split (cs : List MoveNode) (san : String) (c : MoveNode)
    (h : findChildByMove cs san = some c) :
    ∃ pre post, cs = pre ++ c :: post ∧ c.move = san ∧
      ∀ c2, replaceFirstChild cs san c2 = pre ++ c2 :: post := by
  induction cs with
  | nil => simp [findChildByMove] at h
  | cons a rest ih =>
    simp only [findChildByMove, List.find?_cons] at h
    cases hpa : (a.move == san) with
    | true =>
      rw [hpa] at h
      have hac : a = c := Option.some.inj h
      subst hac
      refine ⟨[], rest, by simp, eq_of_beq hpa, ?_⟩
      intro c2
      simp [replaceFirstChild, hpa]
    | false =>
      rw [hpa] at h
      obtain ⟨pre, post, hsplit, hcm, hrep⟩ := ih h
      refine ⟨a :: pre, post, by simp [hsplit], hcm, ?_⟩
      intro c2
      simp only [replaceFirstChild, hpa, Bool.false_eq_true, if_false]
      rw [hrep c2]
      simp

/-- Inserting the records of a line into a fresh childless node produces a
single chain whose leaf path is exactly the records' SANs and hashes. -/
theorem leafPairs_chain : ∀ (rs : List MoveRec) (r : MoveRec),
    leafPairs (insertRecords (recNode r) rs) =
      [(rs.map MoveRec.san, rs.map (fun x => hashMoveNode (recNode x)))] := by
  intro rs
  induction rs with
  | nil =>
    intro r
    simp [insertRecords, recNode, leafPairs_leaf]
  | cons r2 rs2 ih =>
    intro r
    have hfc : findChildByMove (recNode r).children r2.san = none := rfl
    simp only [insertRecords, hfc]
    have hchd : ((recNode r).withChildren
        ((recNode r).children ++ [insertRecords (recNode r2) rs2])) =
        .node r.san r.moveNum r.isWhite r.fen
          [insertRecords (recNode r2) rs2] 0 := rfl
    rw [hchd]
    rw [leafPairs_children _ _ _ _ _ _ (by simp)]
    have hmv : (insertRecords (recNode r2) rs2).move = r2.san :=
      insertRecords_move _ _
    have hhs : hashMoveNode (insertRecords (recNode r2) rs2) =
        hashMoveNode (recNode r2) := insertRecords_hash _ _
    simp [ih r2, hmv, hhs]

/-- A cons with a nonempty tail keeps the tail's last element. -/
theorem getLast?_cons_ne {α : Type} (x : α) (l : List α) (hl : l ≠ []) :
    (x :: l).getLast? = l.getLast? := by
  cases l with
  | nil => exact absurd rfl hl
  | cons y l2 => exact List.getLast?_cons_cons

/-- A nonempty list has a last element. -/
theorem getLast?_cons_ne_none {α : Type} (x : α) (l : List α) :
    (x :: l).getLast? ≠ none := by
  induction l generalizing x with
  | nil => simp
  | cons y l2 ih =>
    rw [List.getLast?_cons_cons]
    exact ih y

/-- Inserting a record line that is prefix-incomparable with every leaf
path of a tree with children adds exactly one leaf path: the new path is
spliced into the depth first order, every other leaf path survives in
place, the new path's moves are the records' SANs, and its last node hash
is the hash of the records' last entry. -/
theorem insertRecords_spec :
    ∀ (rs : List MoveRec) (t : MoveNode),
      rs ≠ [] →
      t.children ≠ [] →
      (∀ pr ∈ leafPairs t, leadsB pr.1 (rs.map MoveRec.san) = false ∧
        leadsB (rs.map MoveRec.san) pr.1 = false) →
      ∃ A B hp,
        leafPairs t = A ++ B ∧
        leafPairs (insertRecords t rs) = A ++ (rs.map MoveRec.san, hp) :: B ∧
        hp.getLast? = (rs.map (fun x => hashMoveNode (recNode x))).getLast? := by
  intro rs
  induction rs with
  | nil => intro t h; exact absurd rfl h
  | cons r rs2 ih =>
    intro t hrne hch hdiv
    cases t with
    | node m n w f cs k =>
      replace hch : cs ≠ [] := hch
      simp only [insertRecords]
      dsimp only [MoveNode.children]
      cases hf : findChildByMove cs r.san with
      | none =>
        refine ⟨leafPairs (MoveNode.node m n w f cs k), [],
          (r :: rs2).map (fun x => hashMoveNode (recNode x)), by simp, ?_, rfl⟩
        dsimp only [MoveNode.withChildren]
        rw [leafPairs_children _ _ _ _ _ _ (by simp)]
        rw [leafPairs_children _ _ _ _ _ _ hch]
        rw [List.map_append, List.flatten_append]
        have hmv : (insertRecords (recNode r) rs2).move = r.san := by
          rw [insertRecords_move]
          rfl
        have hhs : hashMoveNode (insertRecords (recNode r) rs2) =
            hashMoveNode (recNode r) := insertRecords_hash _ _
        simp [leafPairs_chain, hmv, hhs]
      | some c =>
        obtain ⟨pre, post, hsplit, hcm, hrep⟩ := findChildByMove_split cs r.san c hf
        have hcmem : c ∈ cs := by rw [hsplit]; simp
        have hmemF : ∀ p ∈ leafPairs c,
            (c.move :: p.1, hashMoveNode c :: p.2) ∈
              leafPairs (MoveNode.node m n w f cs k) := by
          intro p hp
          rw [leafPairs_children _ _ _ _ _ _ hch]
          apply List.mem_flatten.mpr
          refine ⟨(leafPairs c).map (fun pr =>
            (c.move :: pr.1, hashMoveNode c :: pr.2)), ?_, ?_⟩
          · exact List.mem_map_of_mem _ hcmem
          · exact List.mem_map_of_mem _ hp
        have hbeq : (c.move == r.san) = true := by
          rw [hcm]
          simp
        have hbeq2 : (r.san == c.move) = true := by
          rw [hcm]
          simp
        cases hcc : c.children with
        | nil =>
          exfalso
          have hcleaf : leafPairs c = [([], [])] := by
            cases c with
            | node mc nc wc fc csc kc =>
              replace hcc : csc = [] := hcc
              subst hcc
              exact leafPairs_leaf _ _ _ _ _
          have hmem := hmemF ([], []) (by rw [hcleaf]; simp)
          have h2 := (hdiv _ hmem).1
          simp only [List.map_cons, leadsB, hbeq, Bool.true_and] at h2
          exact Bool.noConfusion h2
        | cons c1 cs1 =>
          have hcch : c.children ≠ [] := by rw [hcc]; simp
          cases hrs2 : rs2 with
          | nil =>
            exfalso
            obtain ⟨p, hp⟩ : ∃ p, p ∈ leafPairs c := by
              cases hlp : leafPairs c with
              | nil => exact absurd hlp (leafPairs_ne_nil c)
              | cons p ps => exact ⟨p, by simp⟩
            have h2 := (hdiv _ (hmemF p hp)).2
            simp only [hrs2, List.map_cons, List.map_nil, leadsB, hbeq2,
              Bool.true_and] at h2
            exact Bool.noConfusion h2
          | cons rr rrs =>
            rw [← hrs2]
            have hrs2ne : rs2 ≠ [] := by rw [hrs2]; simp
            have hdivc : ∀ p ∈ leafPairs c,
                leadsB p.1 (rs2.map MoveRec.san) = false ∧
                leadsB (rs2.map MoveRec.san) p.1 = false := by
              intro p hp
              have h2 := hdiv _ (hmemF p hp)
              constructor
              · have := h2.1
                simp only [List.map_cons, leadsB, hbeq, Bool.true_and] at this
                exact this
              · have := h2.2
                simp only [List.map_cons, leadsB, hbeq2, Bool.true_and] at this
                exact this
            obtain ⟨Ac, Bc, hpc, hold, hnew, hlast⟩ := ih c hrs2ne hcch hdivc
            have hmv : (insertRecords c rs2).move = c.move := insertRecords_move _ _
            have hhs : hashMoveNode (insertRecords c rs2) = hashMoveNode c :=
              insertRecords_hash _ _
            refine ⟨(pre.map (fun c2 => (leafPairs c2).map (fun pr =>
                (c2.move :: pr.1, hashMoveNode c2 :: pr.2)))).flatten ++
                Ac.map (fun pr => (c.move :: pr.1, hashMoveNode c :: pr.2)),
              Bc.map (fun pr => (c.move :: pr.1, hashMoveNode c :: pr.2)) ++
                (post.map (fun c2 => (leafPairs c2).map (fun pr =>
                (c2.move :: pr.1, hashMoveNode c2 :: pr.2)))).flatten,
              hashMoveNode c :: hpc, ?_, ?_, ?_⟩
            · rw [leafPairs_children _ _ _ _ _ _ hch, hsplit]
              simp [hold]
            · dsimp only
              rw [hrep (insertRecords c rs2)]
              dsimp only [MoveNode.withChildren]
              rw [leafPairs_children _ _ _ _ _ _ (by simp)]
              simp only [List.map_append, List.map_cons, List.flatten_append,
                List.flatten_cons, hmv, hhs, hnew]
              simp [hcm]
            · have hpcne : hpc ≠ [] := by
                intro hbad
                rw [hbad, hrs2] at hlast
                simp only [List.map_cons] at hlast
                exact getLast?_cons_ne_none _ _ hlast.symm
              rw [getLast?_cons_ne _ _ hpcne, hlast]
              rw [hrs2]
              rw [List.map_cons]
              exact (getLast?_cons_ne _ _ (by simp)).symm

/-- Replay produces at most one record per token. -/
theorem recordsFrom_length_le (V : Validator) :
    ∀ (l : List String) (st : V.State) (n : Nat) (w : Bool),
      (recordsFrom V st n w l).length ≤ l.length := by
  intro l
  induction l with
  | nil => intro st n w; simp [recordsFrom]
  | cons a rest ih =>
    intro st n w
    simp only [recordsFrom]
    cases hms : V.moveSan st a with
    | none => simp
    | some pr =>
      obtain ⟨sanx, st2⟩ := pr
      simp only [List.length_cons]
      exact Nat.succ_le_succ (ih st2 _ _)

/-- A fresh chain holds one node per record plus its seed. -/
theorem chain_nodeCount : ∀ (rs : List MoveRec) (r : MoveRec),
    nodeCount (insertRecords (recNode r) rs) = 1 + rs.length := by
  intro rs
  induction rs with
  | nil =>
    intro r
    simp [insertRecords, recNode, nodeCount_node]
  | cons r2 rs2 ih =>
    intro r
    have hfc : findChildByMove (recNode r).children r2.san = none := rfl
    simp only [insertRecords, hfc]
    have hchd : ((recNode r).withChildren
        ((recNode r).children ++ [insertRecords (recNode r2) rs2])) =
        .node r.san r.moveNum r.isWhite r.fen
          [insertRecords (recNode r2) rs2] 0 := rfl
    rw [hchd, nodeCount_node]
    simp [ih r2]
    omega

/-- Inserting a record line grows the tree by at most one node per
record. -/
theorem insert_nodeCount : ∀ (rs : List MoveRec) (t : MoveNode),
    nodeCount (insertRecords t rs) ≤ nodeCount t + rs.length := by
  intro rs
  induction rs with
  | nil => intro t; simp [insertRecords]
  | cons r rs2 ih =>
    intro t
    cases t with
    | node m n w f cs k =>
      simp only [insertRecords]
      dsimp only [MoveNode.children]
      cases hf : findChildByMove cs r.san with
      | none =>
        dsimp only [MoveNode.withChildren]
        rw [nodeCount_node, nodeCount_node]
        simp only [List.map_append, List.sum_append, List.map_cons,
          List.map_nil, List.sum_cons, List.sum_nil]
        have := chain_nodeCount rs2 r
        simp only [List.length_cons]
        omega
      | some c =>
        obtain ⟨pre, post, hsplit, hcm, hrep⟩ := findChildByMove_split cs r.san c hf
        dsimp only [MoveNode.withChildren]
        rw [hrep (insertRecords c rs2)]
        rw [nodeCount_node, nodeCount_node, hsplit]
        simp only [List.map_append, List.sum_append, List.map_cons,
          List.sum_cons]
        have := ih c
        simp only [List.length_cons]
        omega

/-- The move tree holds at most one node per token beyond its root. -/
theorem mainlinesToMoveTree_nodeCount (V : Validator) (ms : List String) :
    nodeCount (mainlinesToMoveTree V ms) ≤
      1 + (ms.map (fun m => (splitWs m).length)).sum := by
  suffices H : ∀ (ms : List String) (t : MoveNode),
      nodeCount (ms.foldl (fun root line =>
        if splitWs line = [] then root
        else addLineGo V root V.init 1 true (splitWs line)) t) ≤
      nodeCount t + (ms.map (fun m => (splitWs m).length)).sum by
    have := H ms rootNode
    have hroot : nodeCount rootNode = 1 := by
      simp [rootNode, nodeCount_node]
    rw [hroot] at this
    exact this
  intro ms2
  induction ms2 with
  | nil => intro t; simp
  | cons line rest ih =>
    intro t
    simp only [List.foldl_cons, List.map_cons, List.sum_cons]
    by_cases hmv : splitWs line = []
    · simp only [hmv, if_true]
      have := ih t
      simp [hmv]
      omega
    · simp only [hmv, if_false]
      have h1 := ih (addLineGo V t V.init 1 true (splitWs line))
      have h2 : nodeCount (addLineGo V t V.init 1 true (splitWs line)) ≤
          nodeCount t + (splitWs line).length := by
        rw [addLineGo_eq_insertRecords]
        calc nodeCount (insertRecords t (recordsFrom V V.init 1 true (splitWs line)))
            ≤ nodeCount t + (recordsFrom V V.init 1 true (splitWs line)).length :=
              insert_nodeCount _ _
          _ ≤ nodeCount t + (splitWs line).length := by
              have := recordsFrom_length_le V (splitWs line) V.init 1 true
              omega
      omega

/-- Folding over a flattened list folds over each block in order. -/
theorem foldl_flatten_eq {α β : Type} (g : α → β → α) :
    ∀ (L : List (List β)) (a : α),
      L.flatten.foldl g a = L.foldl (fun x l => l.foldl g x) a := by
  intro L
  induction L with
  | nil => intro a; rfl
  | cons l rest ih =>
    intro a
    simp only [List.flatten_cons, List.foldl_append, List.foldl_cons]
    exact ih (l.foldl g a)

/-- Folding over the shifted leaf paths of a branching node folds over the
shifted leaf paths of each child in order. -/
theorem foldl_leafPairs_shift {α : Type} (g : α → (List String × List String) → α) :
    ∀ (cs : List MoveNode) (sp hp : List String) (a : α),
      (((cs.map (fun c2 => (leafPairs c2).map (fun pr =>
          (c2.move :: pr.1, hashMoveNode c2 :: pr.2)))).flatten).map
        (fun pr => (sp ++ pr.1, hp ++ pr.2))).foldl g a =
      cs.foldl (fun x c2 =>
        ((leafPairs c2).map (fun pr =>
          ((sp ++ [c2.move]) ++ pr.1, (hp ++ [hashMoveNode c2]) ++ pr.2))).foldl
          g x) a := by
  intro cs
  induction cs with
  | nil => intro sp hp a; rfl
  | cons c cs2 ih =>
    intro sp hp a
    simp only [List.map_cons, List.flatten_cons, List.map_append,
      List.foldl_append, List.foldl_cons]
    rw [ih]
    congr 1
    rw [List.map_map]
    refine congrArg (List.foldl g a) (List.map_congr_left ?_)
    intro pr hpr
    simp

/-- With enough fuel, the walk of the index builder processes every tree
of its worklist in order, folding updateLeaf over the leaf paths of each
tree shifted by the path prefixes the worklist entry carries. -/
theorem walkF_eq :
    ∀ (fuel : Nat) (work : List (MoveNode × List String × List String))
      (acc : TreeIndex),
      (work.map (fun e => nodeCount e.1)).sum ≤ fuel →
      walkF fuel work acc =
        work.foldl (fun a e =>
          ((leafPairs e.1).map (fun pr => (e.2.1 ++ pr.1, e.2.2 ++ pr.2))).foldl
            (fun a2 pr => updateLeaf a2 pr.1 pr.2) a) acc := by
  intro fuel
  induction fuel with
  | zero =>
    intro work acc hsum
    cases work with
    | nil => rfl
    | cons e rest =>
      exfalso
      simp only [List.map_cons, List.sum_cons] at hsum
      have := nodeCount_pos e.1
      omega
  | succ fuel ih =>
    intro work acc hsum
    cases work with
    | nil => rfl
    | cons e rest =>
      obtain ⟨n, sp, hp⟩ := e
      cases n with
      | node m mn w f cs k =>
        simp only [List.map_cons, List.sum_cons] at hsum
        cases cs with
        | nil =>
          show walkF fuel rest (updateLeaf acc sp hp) = _
          rw [ih rest (updateLeaf acc sp hp) (by
            have := nodeCount_pos (MoveNode.node m mn w f [] k)
            omega)]
          simp only [List.foldl_cons]
          congr 1
          rw [leafPairs_leaf]
          simp
        | cons c cs2 =>
          show walkF fuel
            (((c :: cs2).map fun c2 =>
              (c2, sp ++ [c2.move], hp ++ [hashMoveNode c2])) ++ rest) acc = _
          have hcount : ((((c :: cs2).map fun c2 =>
              (c2, sp ++ [c2.move], hp ++ [hashMoveNode c2])) ++ rest).map
                (fun e => nodeCount e.1)).sum ≤ fuel := by
            rw [List.map_append, List.sum_append, List.map_map]
            rw [nodeCount_node] at hsum
            have hmm2 : ((c :: cs2).map ((fun e => nodeCount e.1) ∘ fun c2 =>
                (c2, sp ++ [c2.move], hp ++ [hashMoveNode c2]))) =
                (c :: cs2).map nodeCount := by
              apply List.map_congr_left
              intro x hx
              rfl
            rw [hmm2]
            omega
          rw [ih _ acc hcount]
          rw [List.foldl_append]
          simp only [List.foldl_cons]
          congr 1
          rw [List.foldl_map]
          rw [leafPairs_children _ _ _ _ _ _ (by simp)]
          rw [foldl_leafPairs_shift]

/-- The per ply loop never touches the plan table or the leaf order. -/
theorem leafLoop_preserves (lh : String) :
    ∀ (l pre hashes : List String) (acc : TreeIndex),
      (leafLoop lh pre l hashes acc).leafPlansByHash = acc.leafPlansByHash ∧
      (leafLoop lh pre l hashes acc).leafHashesInOrder =
        acc.leafHashesInOrder := by
  intro l
  induction l with
  | nil =>
    intro pre hashes acc
    exact ⟨rfl, rfl⟩
  | cons san rest ih =>
    intro pre hashes acc
    simp only [leafLoop]
    by_cases hc : san = "" ∨ hashes.headD "" = ""
    · rw [if_pos hc]
      exact ih (pre ++ [san]) hashes.tail acc
    · rw [if_neg hc]
      obtain ⟨h1, h2⟩ := ih (pre ++ [san]) hashes.tail
        { acc with
          positionMoveLeafIndex :=
            alistSet acc.positionMoveLeafIndex (posKeyN pre.length pre)
              (alistSet ((alistGet acc.positionMoveLeafIndex
                (posKeyN pre.length pre)).getD []) san
                (if (((alistGet ((alistGet acc.positionMoveLeafIndex
                    (posKeyN pre.length pre)).getD []) san).getD
                    []).contains lh) then
                  ((alistGet ((alistGet acc.positionMoveLeafIndex
                    (posKeyN pre.length pre)).getD []) san).getD [])
                else
                  ((alistGet ((alistGet acc.positionMoveLeafIndex
                    (posKeyN pre.length pre)).getD []) san).getD []) ++ [lh]))
          occurrenceNodeHashByKey :=
            if (alistGet acc.occurrenceNodeHashByKey
                (toPgnMoveOccurrenceKey (posKeyN pre.length pre) san)).isSome then
              acc.occurrenceNodeHashByKey
            else acc.occurrenceNodeHashByKey ++
              [(toPgnMoveOccurrenceKey (posKeyN pre.length pre) san,
                hashes.headD "")] }
      rw [h1, h2]
      exact ⟨rfl, rfl⟩

/-- A lookup misses an appended table when it misses both parts. -/
theorem alistGet_append_none {β : Type} (l1 l2 : List (String × β)) (k : String)
    (h1 : alistGet l1 k = none) (h2 : alistGet l2 k = none) :
    alistGet (l1 ++ l2) k = none := by
  unfold alistGet at h1 h2 ⊢
  rw [List.find?_append]
  cases hfa : List.find? (fun e => e.1 == k) l1 with
  | some v =>
    rw [hfa] at h1
    exact Option.noConfusion h1
  | none =>
    cases hfb : List.find? (fun e => e.1 == k) l2 with
    | some v =>
      rw [hfb] at h2
      exact Option.noConfusion h2
    | none =>
      rfl

/-- A lookup misses a singleton table with a different key. -/
theorem alistGet_singleton_none {β : Type} (k1 k : String) (v : β)
    (h : k1 ≠ k) : alistGet [(k1, v)] k = none := by
  simp [alistGet, h]

/-- Folding updateLeaf over leaf paths whose last hashes are nonempty,
pairwise distinct and absent from the accumulator registers every path: in
order, one ordered hash and one plan per path. -/
theorem updateLeaf_fold :
    ∀ (pairs : List (List String × List String)) (acc : TreeIndex),
      (∀ pr ∈ pairs, pr.2 ≠ []) →
      (∀ pr ∈ pairs, pr.2.getLast?.getD "" ≠ "") →
      (pairs.map (fun pr => pr.2.getLast?.getD "")).Nodup →
      (∀ pr ∈ pairs, alistGet acc.leafPlansByHash (pr.2.getLast?.getD "") = none) →
      (pairs.foldl (fun a pr => updateLeaf a pr.1 pr.2) acc).leafHashesInOrder =
        acc.leafHashesInOrder ++ pairs.map (fun pr => pr.2.getLast?.getD "") ∧
      (pairs.foldl (fun a pr => updateLeaf a pr.1 pr.2) acc).leafPlansByHash =
        acc.leafPlansByHash ++ pairs.map (fun pr =>
          (pr.2.getLast?.getD "", ⟨pr.2.getLast?.getD "", pr.1, pr.2⟩)) := by
  intro pairs
  induction pairs with
  | nil =>
    intro acc _ _ _ _
    simp
  | cons pr rest ih =>
    intro acc hnil hne hnd hfresh
    simp only [List.foldl_cons]
    have hpr2 : pr.2 ≠ [] := hnil pr (by simp)
    have hh : pr.2.getLast?.getD "" ≠ "" := hne pr (by simp)
    have hf : alistGet acc.leafPlansByHash (pr.2.getLast?.getD "") = none :=
      hfresh pr (by simp)
    have hred : updateLeaf acc pr.1 pr.2 =
        leafLoop (pr.2.getLast?.getD "") [] pr.1 pr.2
          { acc with
            leafPlansByHash := acc.leafPlansByHash ++
              [(pr.2.getLast?.getD "",
                ⟨pr.2.getLast?.getD "", pr.1, pr.2⟩)]
            leafHashesInOrder := acc.leafHashesInOrder ++
              [pr.2.getLast?.getD ""] } := by
      unfold updateLeaf
      rw [if_neg hpr2]
      rw [if_neg (by
        rintro (h1 | h2)
        · exact hh h1
        · rw [hf] at h2
          exact Bool.noConfusion h2)]
    rw [hred]
    obtain ⟨hl1, hl2⟩ := leafLoop_preserves (pr.2.getLast?.getD "") pr.1 [] pr.2
      { acc with
        leafPlansByHash := acc.leafPlansByHash ++
          [(pr.2.getLast?.getD "", ⟨pr.2.getLast?.getD "", pr.1, pr.2⟩)]
        leafHashesInOrder := acc.leafHashesInOrder ++ [pr.2.getLast?.getD ""] }
    simp only [List.map_cons] at hnd
    obtain ⟨hhead, hndrest⟩ := List.nodup_cons.mp hnd
    obtain ⟨ih1, ih2⟩ := ih (leafLoop (pr.2.getLast?.getD "") [] pr.1 pr.2
        { acc with
          leafPlansByHash := acc.leafPlansByHash ++
            [(pr.2.getLast?.getD "", ⟨pr.2.getLast?.getD "", pr.1, pr.2⟩)]
          leafHashesInOrder := acc.leafHashesInOrder ++ [pr.2.getLast?.getD ""] })
      (fun q hq => hnil q (by simp [hq]))
      (fun q hq => hne q (by simp [hq]))
      hndrest
      (by
        intro q hq
        rw [hl1]
        apply alistGet_append_none
        · exact hfresh q (by simp [hq])
        · apply alistGet_singleton_none
          intro hbad
          apply hhead
          rw [hbad]
          exact List.mem_map_of_mem _ hq)
    constructor
    · rw [ih1, hl2]
      simp
    · rw [ih2, hl1]
      simp

/-- A node hash is never the empty string: the template always contains
its separators. -/
theorem hashMoveNode_ne_empty (n : MoveNode) : hashMoveNode n ≠ "" := by
  unfold hashMoveNode
  intro h
  have hlen := congrArg String.length h
  simp only [String.length_append] at hlen
  have hdash : ("-" : String).length = 1 := rfl
  have hemp : ("" : String).length = 0 := rfl
  simp only [hdash, hemp] at hlen
  omega

/-- A line with at least one record has a nonempty leaf hash. -/
theorem lineLeafHash_ne (V : Validator) (l : List String)
    (hrec : recordsFrom V V.init 1 true l ≠ []) : lineLeafHash V l ≠ "" := by
  unfold lineLeafHash
  cases hr : recordsFrom V V.init 1 true l with
  | nil => exact absurd hr hrec
  | cons r rs =>
    rw [List.map_cons]
    cases hgl : (hashMoveNode (recNode r) ::
        rs.map (fun z => hashMoveNode (recNode z))).getLast? with
    | none => exact absurd hgl (getLast?_cons_ne_none _ _)
    | some x =>
      simp only [Option.getD_some]
      have hne2 : (hashMoveNode (recNode r) ::
          rs.map (fun z => hashMoveNode (recNode z))) ≠ [] := by simp
      rw [List.getLast?_eq_getLast_of_ne_nil hne2] at hgl
      have hx : x ∈ hashMoveNode (recNode r) ::
          rs.map (fun z => hashMoveNode (recNode z)) := by
        rw [← Option.some.inj hgl]
        exact List.getLast_mem hne2
      rcases List.mem_cons.mp hx with hx | hx
      · rw [hx]
        exact hashMoveNode_ne_empty _
      · obtain ⟨y, _, hy⟩ := List.mem_map.mp hx
        rw [← hy]
        exact hashMoveNode_ne_empty _

/-- Below a branching root, every leaf path passes at least one node. -/
theorem leafPairs_snd_ne_nil (t : MoveNode) (hch : t.children ≠ []) :
    ∀ pr ∈ leafPairs t, pr.2 ≠ [] := by
  cases t with
  | node m n w f cs k =>
    replace hch : cs ≠ [] := hch
    rw [leafPairs_children _ _ _ _ _ _ hch]
    intro pr hpr
    obtain ⟨block, hblock, hprin⟩ := List.mem_flatten.mp hpr
    obtain ⟨c, _, hc⟩ := List.mem_map.mp hblock
    rw [← hc] at hprin
    obtain ⟨q, _, hq⟩ := List.mem_map.mp hprin
    rw [← hq]
    simp

/-- Insertion never empties a sibling list. -/
theorem insert_children_ne (t : MoveNode) (rs : List MoveRec)
    (h : t.children ≠ []) : (insertRecords t rs).children ≠ [] := by
  cases rs with
  | nil => exact h
  | cons r rs2 =>
    cases t with
    | node m n w f cs k =>
      replace h : cs ≠ [] := h
      simp only [insertRecords]
      dsimp only [MoveNode.children]
      cases hf : findChildByMove cs r.san with
      | none =>
        dsimp only [MoveNode.withChildren, MoveNode.children]
        simp
      | some c =>
        obtain ⟨pre, post, hsplit, hcm, hrep⟩ := findChildByMove_split cs r.san c hf
        dsimp only [MoveNode.withChildren, MoveNode.children]
        rw [hrep]
        simp

/-- Joining token lines back to strings and resplitting them replays the
same per line insertions. -/
theorem mainlines_fold_eq (V : Validator) :
    ∀ (lines : List (List String)) (t : MoveNode),
      (∀ l ∈ lines, splitWs (joinSp l) = l) →
      (∀ l ∈ lines, l ≠ []) →
      (lines.map joinSp).foldl (fun root line =>
        if splitWs line = [] then root
        else addLineGo V root V.init 1 true (splitWs line)) t =
      lines.foldl (fun root l => addLineGo V root V.init 1 true l) t := by
  intro lines
  induction lines with
  | nil => intro t _ _; rfl
  | cons l rest ih =>
    intro t hres hne
    simp only [List.map_cons, List.foldl_cons]
    rw [hres l (by simp)]
    rw [if_neg (hne l (by simp))]
    exact ih _ (fun x hx => hres x (by simp [hx])) (fun x hx => hne x (by simp [hx]))

/-- Folding record insertions over pairwise prefix-incomparable, fully
replayed lines keeps the tree branching and keeps its leaf paths, tagged
with their last node hashes, a permutation of the lines inserted so far
tagged with their leaf hashes. -/
theorem foldl_insert_perm (V : Validator) :
    ∀ (lines : List (List String)) (t : MoveNode) (done : List (List String)),
      (∀ l ∈ lines, l ≠ []) →
      (∀ l ∈ lines, (recordsFrom V V.init 1 true l).map MoveRec.san = l) →
      (∀ l ∈ lines, ∀ d ∈ done, leadsB l d = false ∧ leadsB d l = false) →
      List.Pairwise (fun a b => leadsB a b = false ∧ leadsB b a = false) lines →
      t.children ≠ [] →
      List.Perm ((leafPairs t).map (fun pr => (pr.1, pr.2.getLast?.getD "")))
        (done.map (fun l => (l, lineLeafHash V l))) →
      (lines.foldl (fun root l => addLineGo V root V.init 1 true l) t).children
        ≠ [] ∧
      List.Perm
        ((leafPairs (lines.foldl
          (fun root l => addLineGo V root V.init 1 true l) t)).map
            (fun pr => (pr.1, pr.2.getLast?.getD "")))
        ((done ++ lines).map (fun l => (l, lineLeafHash V l))) := by
  intro lines
  induction lines with
  | nil =>
    intro t done _ _ _ _ hch hperm
    simpa using ⟨hch, hperm⟩
  | cons l ls ih =>
    intro t done hne hleg hdone hpw hch hperm
    simp only [List.foldl_cons]
    have hlne : l ≠ [] := hne l (by simp)
    have hlleg : (recordsFrom V V.init 1 true l).map MoveRec.san = l :=
      hleg l (by simp)
    have hrsne : recordsFrom V V.init 1 true l ≠ [] := by
      intro hbad
      rw [hbad] at hlleg
      exact hlne hlleg.symm
    have hdiv : ∀ pr ∈ leafPairs t,
        leadsB pr.1 ((recordsFrom V V.init 1 true l).map MoveRec.san) = false ∧
        leadsB ((recordsFrom V V.init 1 true l).map MoveRec.san) pr.1 = false := by
      intro pr hpr
      rw [hlleg]
      have hmem : (pr.1, pr.2.getLast?.getD "") ∈
          (leafPairs t).map (fun pr => (pr.1, pr.2.getLast?.getD "")) :=
        List.mem_map_of_mem _ hpr
      have hmem2 := hperm.mem_iff.mp hmem
      obtain ⟨d, hd, hdq⟩ := List.mem_map.mp hmem2
      have hd1 : pr.1 = d := congrArg Prod.fst hdq.symm
      rw [hd1]
      obtain ⟨x1, x2⟩ := hdone l (by simp) d hd
      exact ⟨x2, x1⟩
    rw [addLineGo_eq_insertRecords]
    obtain ⟨A, B, hp, hold, hnew, hlast⟩ :=
      insertRecords_spec (recordsFrom V V.init 1 true l) t hrsne hch hdiv
    have hch2 : (insertRecords t (recordsFrom V V.init 1 true l)).children ≠ [] :=
      insert_children_ne t _ hch
    have hproj : hp.getLast?.getD "" = lineLeafHash V l := by
      unfold lineLeafHash
      rw [hlast]
    have hperm2 : List.Perm
        ((leafPairs (insertRecords t (recordsFrom V V.init 1 true l))).map
          (fun pr => (pr.1, pr.2.getLast?.getD "")))
        ((done ++ [l]).map (fun x => (x, lineLeafHash V x))) := by
      rw [hnew]
      simp only [List.map_append, List.map_cons, List.map_nil]
      rw [hlleg, hproj]
      refine List.Perm.trans List.perm_middle ?_
      refine List.Perm.trans (List.Perm.cons _ ?_)
        (List.perm_append_singleton _ _).symm
      rw [← List.map_append, ← hold]
      exact hperm
    have hdone2 : ∀ x ∈ ls, ∀ d ∈ done ++ [l],
        leadsB x d = false ∧ leadsB d x = false := by
      intro x hx d hd
      rcases List.mem_append.mp hd with hd | hd
      · exact hdone x (by simp [hx]) d hd
      · rw [List.mem_singleton.mp hd]
        have hxl := (List.pairwise_cons.mp hpw).1 x hx
        exact ⟨hxl.2, hxl.1⟩
    have hrest := ih (insertRecords t (recordsFrom V V.init 1 true l))
      (done ++ [l])
      (fun x hx => hne x (by simp [hx]))
      (fun x hx => hleg x (by simp [hx]))
      hdone2
      (List.pairwise_cons.mp hpw).2
      hch2
      hperm2
    have hassoc : done ++ l :: ls = (done ++ [l]) ++ ls := by simp
    rw [hassoc]
    exact hrest

/-- Inserting a nonempty record line into a childless node grows exactly
one chain, whose single leaf path carries the records' SANs and hashes. -/
theorem insert_into_childless (m : String) (n : Nat) (w : Bool) (f : String)
    (k : Nat) (rs : List MoveRec) (hrs : rs ≠ []) :
    leafPairs (insertRecords (.node m n w f [] k) rs) =
      [(rs.map MoveRec.san, rs.map (fun x => hashMoveNode (recNode x)))] ∧
    (insertRecords (.node m n w f [] k) rs).children ≠ [] := by
  cases rs with
  | nil => exact absurd rfl hrs
  | cons r rs2 =>
    have hfc : findChildByMove (MoveNode.node m n w f [] k).children r.san =
      none := rfl
    simp only [insertRecords, hfc]
    have hchd : ((MoveNode.node m n w f [] k).withChildren
        ((MoveNode.node m n w f [] k).children ++
          [insertRecords (recNode r) rs2])) =
        MoveNode.node m n w f [insertRecords (recNode r) rs2] k := rfl
    rw [hchd]
    constructor
    · rw [leafPairs_children _ _ _ _ _ _ (by simp)]
      have hmv : (insertRecords (recNode r) rs2).move = r.san := by
        rw [insertRecords_move]
        rfl
      have hhs : hashMoveNode (insertRecords (recNode r) rs2) =
          hashMoveNode (recNode r) := insertRecords_hash _ _
      simp [leafPairs_chain, hmv, hhs]
    · simp [MoveNode.children]

/-- The index the walk builds over the parsed lines: one ordered leaf
hash per line and a plan whose sanPath is that line, up to the depth
first order of the tree. -/
theorem buildTreeIndex_spec (V : Validator) (lines : List (List String))
    (hres : ∀ l ∈ lines, splitWs (joinSp l) = l)
    (hne : ∀ l ∈ lines, l ≠ [])
    (hleg : ∀ l ∈ lines, (recordsFrom V V.init 1 true l).map MoveRec.san = l)
    (hpw : List.Pairwise (fun a b => leadsB a b = false ∧ leadsB b a = false)
      lines)
    (hhash : (lines.map (lineLeafHash V)).Nodup) :
    (buildTreeIndex V lines).leafHashesInOrder.length = lines.length ∧
    List.Perm
      ((buildTreeIndex V lines).leafPlansByHash.map (fun e => e.2.sanPath))
      lines := by
  cases lines with
  | nil => exact ⟨rfl, List.Perm.nil⟩
  | cons l0 rest =>
    have htree : mainlinesToMoveTree V ((l0 :: rest).map joinSp) =
        (l0 :: rest).foldl (fun root l => addLineGo V root V.init 1 true l)
          rootNode :=
      mainlines_fold_eq V (l0 :: rest) rootNode hres hne
    have hl0ne : l0 ≠ [] := hne l0 (by simp)
    have hl0leg : (recordsFrom V V.init 1 true l0).map MoveRec.san = l0 :=
      hleg l0 (by simp)
    have hrs0ne : recordsFrom V V.init 1 true l0 ≠ [] := by
      intro hbad
      rw [hbad] at hl0leg
      exact hl0ne hl0leg.symm
    obtain ⟨hpairs1, hch1⟩ := insert_into_childless "" 0 false INITIAL_FEN 0
      (recordsFrom V V.init 1 true l0) hrs0ne
    have hperm1 : List.Perm
        ((leafPairs (insertRecords rootNode
          (recordsFrom V V.init 1 true l0))).map
            (fun pr => (pr.1, pr.2.getLast?.getD "")))
        ([l0].map (fun x => (x, lineLeafHash V x))) := by
      rw [show rootNode = MoveNode.node "" 0 false INITIAL_FEN [] 0 from rfl]
      rw [hpairs1]
      simp only [List.map_cons, List.map_nil]
      rw [hl0leg]
      rfl
    have hdone1 : ∀ x ∈ rest, ∀ d ∈ [l0],
        leadsB x d = false ∧ leadsB d x = false := by
      intro x hx d hd
      rw [List.mem_singleton.mp hd]
      have := (List.pairwise_cons.mp hpw).1 x hx
      exact ⟨this.2, this.1⟩
    obtain ⟨hchF, hpermF⟩ := foldl_insert_perm V rest
      (insertRecords rootNode (recordsFrom V V.init 1 true l0)) [l0]
      (fun x hx => hne x (by simp [hx]))
      (fun x hx => hleg x (by simp [hx]))
      hdone1
      (List.pairwise_cons.mp hpw).2
      (by
        rw [show rootNode = MoveNode.node "" 0 false INITIAL_FEN [] 0 from rfl]
        exact hch1)
      hperm1
    have hfoldeq : (l0 :: rest).foldl
        (fun root l => addLineGo V root V.init 1 true l) rootNode =
        rest.foldl (fun root l => addLineGo V root V.init 1 true l)
          (insertRecords rootNode (recordsFrom V V.init 1 true l0)) := by
      simp only [List.foldl_cons]
      rw [addLineGo_eq_insertRecords]
    have hbound : (([(mainlinesToMoveTree V ((l0 :: rest).map joinSp),
        ([] : List String), ([] : List String))].map
          (fun e => nodeCount e.1)).sum) ≤
        2 + ((l0 :: rest).map List.length).sum := by
      have h1 := mainlinesToMoveTree_nodeCount V ((l0 :: rest).map joinSp)
      have h2 : (((l0 :: rest).map joinSp).map
          (fun m => (splitWs m).length)).sum =
          ((l0 :: rest).map List.length).sum := by
        rw [List.map_map]
        congr 1
        apply List.map_congr_left
        intro x hx
        simp only [Function.comp]
        rw [hres x hx]
      rw [h2] at h1
      simp only [List.map_cons, List.map_nil, List.sum_cons, List.sum_nil]
      simp only [List.map_cons, List.sum_cons] at h1
      omega
    have hwalk : buildTreeIndex V (l0 :: rest) =
        ((leafPairs (mainlinesToMoveTree V ((l0 :: rest).map joinSp))).map
          (fun pr => (pr.1, pr.2))).foldl
            (fun a2 pr => updateLeaf a2 pr.1 pr.2) emptyIndex := by
      unfold buildTreeIndex
      rw [walkF_eq _ _ _ hbound]
      simp only [List.foldl_cons, List.foldl_nil, List.nil_append]
    have hid : ((leafPairs (mainlinesToMoveTree V
        ((l0 :: rest).map joinSp))).map (fun pr => (pr.1, pr.2))) =
        leafPairs (mainlinesToMoveTree V ((l0 :: rest).map joinSp)) := by
      have hfid : (fun pr : List String × List String => (pr.1, pr.2)) =
          id := by
        funext pr
        rfl
      rw [hfid, List.map_id]
    rw [hid] at hwalk
    rw [htree, hfoldeq] at hwalk
    set tree := rest.foldl (fun root l => addLineGo V root V.init 1 true l)
      (insertRecords rootNode (recordsFrom V V.init 1 true l0)) with htdef
    have hlines : ([l0] ++ rest) = l0 :: rest := rfl
    rw [hlines] at hpermF
    have hrecne : ∀ x ∈ l0 :: rest, recordsFrom V V.init 1 true x ≠ [] := by
      intro x hx hbad
      have := hleg x hx
      rw [hbad] at this
      exact hne x hx this.symm
    have hfresh : ∀ pr ∈ leafPairs tree,
        alistGet emptyIndex.leafPlansByHash (pr.2.getLast?.getD "") = none := by
      intro pr hpr
      rfl
    have hlastne : ∀ pr ∈ leafPairs tree, pr.2.getLast?.getD "" ≠ "" := by
      intro pr hpr
      have hm : (pr.1, pr.2.getLast?.getD "") ∈
          (l0 :: rest).map (fun x => (x, lineLeafHash V x)) :=
        hpermF.mem_iff.mp (List.mem_map_of_mem _ hpr)
      obtain ⟨x, hx, hxe⟩ := List.mem_map.mp hm
      have hsnd : pr.2.getLast?.getD "" = lineLeafHash V x :=
        congrArg Prod.snd hxe.symm
      rw [hsnd]
      exact lineLeafHash_ne V x (hrecne x hx)
    have hmapsnd : (leafPairs tree).map (fun pr => pr.2.getLast?.getD "") =
        ((leafPairs tree).map (fun pr => (pr.1, pr.2.getLast?.getD ""))).map
          Prod.snd := by
      rw [List.map_map]
      rfl
    have hnd2 : ((leafPairs tree).map
        (fun pr => pr.2.getLast?.getD "")).Nodup := by
      rw [hmapsnd]
      have hpermsnd := hpermF.map Prod.snd
      have hsnd2 : ((l0 :: rest).map
          (fun x => (x, lineLeafHash V x))).map Prod.snd =
          (l0 :: rest).map (lineLeafHash V) := by
        rw [List.map_map]
        rfl
      rw [hsnd2] at hpermsnd
      exact (hpermsnd.nodup_iff).mpr hhash
    obtain ⟨ho, hp2⟩ := updateLeaf_fold (leafPairs tree) emptyIndex
      (leafPairs_snd_ne_nil tree hchF) hlastne hnd2 hfresh
    constructor
    · rw [hwalk, ho]
      have hlen := hpermF.length_eq
      simp only [List.length_map] at hlen
      simp only [emptyIndex, List.nil_append, List.length_map]
      exact hlen
    · rw [hwalk, hp2]
      have hmapplan : ((emptyIndex.leafPlansByHash ++ (leafPairs tree).map
          (fun pr => (pr.2.getLast?.getD "",
            (⟨pr.2.getLast?.getD "", pr.1, pr.2⟩ : LeafPlan)))).map
          (fun e => e.2.sanPath)) = (leafPairs tree).map (fun pr => pr.1) := by
        simp only [emptyIndex, List.nil_append]
        rw [List.map_map]
        rfl
      rw [hmapplan]
      have hfst := hpermF.map Prod.fst
      have h1 : ((leafPairs tree).map
          (fun pr => (pr.1, pr.2.getLast?.getD ""))).map Prod.fst =
          (leafPairs tree).map (fun pr => pr.1) := by
        rw [List.map_map]
        rfl
      have h2 : ((l0 :: rest).map
          (fun x => (x, lineLeafHash V x))).map Prod.fst = l0 :: rest := by
        rw [List.map_map]
        have hcompid : (Prod.fst ∘ fun x : List String =>
            (x, lineLeafHash V x)) = id := by
          funext x
          rfl
        rw [hcompid, List.map_id]
      rw [h1, h2] at hfst
      exact hfst

/-- A line replayed into one record per token reaches a defined state. -/
theorem stateAfter_isSome_of_records (V : Validator) :
    ∀ (l : List String) (st : V.State) (n : Nat) (w : Bool),
      (recordsFrom V st n w l).length = l.length →
      (stateAfter V st l).isSome = true := by
  intro l
  induction l with
  | nil => intro st n w _; rfl
  | cons a rest ih =>
    intro st n w hlen
    simp only [recordsFrom, stateAfter] at *
    cases hms : V.moveSan st a with
    | none =>
      rw [hms] at hlen
      simp at hlen
    | some pr =>
      obtain ⟨sanx, st2⟩ := pr
      rw [hms] at hlen
      simp only [List.length_cons, Nat.succ.injEq] at hlen
      exact ih st2 _ _ hlen

/-- C1 (as amended).  For every move text whose parse yields mainlines
that replay fully through the validator with canonical SANs, are pairwise
prefix-incomparable, and have pairwise distinct leaf hashes,
moveTextToMainlines returns exactly the distinct deduplicated mainlines
and the tree index's leaf count equals that distinct count. -/
theorem c1_distinct_mainlines_leaf_count (V : Validator) (mt : String)
    (hres : ∀ m ∈ moveTextToMainlines mt,
      splitWs (joinSp (splitWs m)) = splitWs m)
    (hne : ∀ m ∈ moveTextToMainlines mt, splitWs m ≠ [])
    (hleg : ∀ m ∈ moveTextToMainlines mt,
      (recordsFrom V V.init 1 true (splitWs m)).map MoveRec.san = splitWs m)
    (hpw : ((moveTextToMainlines mt).map splitWs).Pairwise
      (fun a b => leadsB a b = false ∧ leadsB b a = false))
    (hhash : (((moveTextToMainlines mt).map splitWs).map
      (lineLeafHash V)).Nodup) :
    (moveTextToMainlines mt).Nodup ∧
    (buildTreeIndex V
        ((moveTextToMainlines mt).map splitWs)).leafHashesInOrder.length =
      (moveTextToMainlines mt).length := by
  constructor
  · obtain ⟨hnd, -, -⟩ := dedupAux_spec
      (((parseMainlines (tokenizeMoveText mt) []).1.map trimStr).filter
        (· ≠ "")) []
    rw [moveTextToMainlines_eq mt]
    exact hnd
  · obtain ⟨hlen, -⟩ := buildTreeIndex_spec V
      ((moveTextToMainlines mt).map splitWs)
      (by
        intro l hl
        obtain ⟨m, hm, hml⟩ := List.mem_map.mp hl
        rw [← hml]
        exact hres m hm)
      (by
        intro l hl
        obtain ⟨m, hm, hml⟩ := List.mem_map.mp hl
        rw [← hml]
        exact hne m hm)
      (by
        intro l hl
        obtain ⟨m, hm, hml⟩ := List.mem_map.mp hl
        rw [← hml]
        exact hleg m hm)
      hpw
      hhash
    rw [hlen, List.length_map]

/-- C9 (as amended).  For every mainline of such a move text there is a
LeafPlan in the index whose sanPath is exactly that mainline's token list,
replays fully through a fresh validator, and joins back to the mainline
text. -/
theorem c9_round_trip (V : Validator) (mt : String)
    (hres : ∀ m ∈ moveTextToMainlines mt,
      splitWs (joinSp (splitWs m)) = splitWs m)
    (hne : ∀ m ∈ moveTextToMainlines mt, splitWs m ≠ [])
    (hleg : ∀ m ∈ moveTextToMainlines mt,
      (recordsFrom V V.init 1 true (splitWs m)).map MoveRec.san = splitWs m)
    (hpw : ((moveTextToMainlines mt).map splitWs).Pairwise
      (fun a b => leadsB a b = false ∧ leadsB b a = false))
    (hhash : (((moveTextToMainlines mt).map splitWs).map
      (lineLeafHash V)).Nodup)
    (hjoin : ∀ m ∈ moveTextToMainlines mt, joinSp (splitWs m) = m) :
    ∀ m ∈ moveTextToMainlines mt,
      ∃ plan ∈ (buildTreeIndex V
          ((moveTextToMainlines mt).map splitWs)).leafPlansByHash.map Prod.snd,
        plan.sanPath = splitWs m ∧
        (stateAfter V V.init plan.sanPath).isSome = true ∧
        joinSp plan.sanPath = m := by
  intro m hm
  obtain ⟨-, hperm⟩ := buildTreeIndex_spec V
    ((moveTextToMainlines mt).map splitWs)
    (by
      intro l hl
      obtain ⟨x, hx, hxl⟩ := List.mem_map.mp hl
      rw [← hxl]
      exact hres x hx)
    (by
      intro l hl
      obtain ⟨x, hx, hxl⟩ := List.mem_map.mp hl
      rw [← hxl]
      exact hne x hx)
    (by
      intro l hl
      obtain ⟨x, hx, hxl⟩ := List.mem_map.mp hl
      rw [← hxl]
      exact hleg x hx)
    hpw
    hhash
  have hmem : splitWs m ∈ (buildTreeIndex V
      ((moveTextToMainlines mt).map splitWs)).leafPlansByHash.map
        (fun e => e.2.sanPath) :=
    hperm.mem_iff.mpr (List.mem_map_of_mem _ hm)
  obtain ⟨e, he, hesp⟩ := List.mem_map.mp hmem
  refine ⟨e.2, List.mem_map_of_mem _ he, hesp, ?_, ?_⟩
  · rw [hesp]
    apply stateAfter_isSome_of_records V (splitWs m) V.init 1 true
    have := congrArg List.length (hleg m hm)
    rw [List.length_map] at this
    exact this
  · rw [hesp]
    exact hjoin m hm

/-- Counterexample to C1 as stated: the text e4 ( e4 e5 ) parses to the
two distinct, fully legal mainlines e4 e5 and e4, yet the tree collapses
the prefix mainline into the longer one and the index holds one leaf, not
two. -/
theorem c1_counterexample :
    moveTextToMainlines "e4 ( e4 e5 )" = ["e4 e5", "e4"] ∧
    (∀ m ∈ moveTextToMainlines "e4 ( e4 e5 )",
      (recordsFrom chessStub chessStub.init 1 true (splitWs m)).map
        MoveRec.san = splitWs m) ∧
    (buildTreeIndex chessStub ((moveTextToMainlines "e4 ( e4 e5 )").map
      splitWs)).leafHashesInOrder.length = 1 ∧
    (moveTextToMainlines "e4 ( e4 e5 )").length = 2 := by
  refine ⟨by decide, by decide, by decide, by decide⟩

/-- Witness for C1: on e4 ( d4 ), two prefix-incomparable legal mainlines
yield exactly two distinct mainlines and two leaves. -/
theorem c1_witness :
    (moveTextToMainlines "e4 ( d4 )").Nodup ∧
    (buildTreeIndex chessStub ((moveTextToMainlines "e4 ( d4 )").map
        splitWs)).leafHashesInOrder.length =
      (moveTextToMainlines "e4 ( d4 )").length := by
  exact c1_distinct_mainlines_leaf_count chessStub "e4 ( d4 )"
    (by decide) (by decide) (by decide) (by decide) (by decide)

/-- Counterexample to C9 as stated: in e4 e5 ( xx9 ) the mainline e4 xx9
contains a rejected token, and no plan of the index replays to it. -/
theorem c9_counterexample :
    "e4 xx9" ∈ moveTextToMainlines "e4 e5 ( xx9 )" ∧
    ∀ e ∈ (buildTreeIndex chessStub
        ((moveTextToMainlines "e4 e5 ( xx9 )").map splitWs)).leafPlansByHash,
      joinSp e.2.sanPath ≠ "e4 xx9" := by
  refine ⟨by decide, by decide⟩

/-- Witness for C9: on e4 ( d4 ), the mainline e4 is reproduced exactly
by a plan of the index. -/
theorem c9_witness :
    ∃ plan ∈ (buildTreeIndex chessStub ((moveTextToMainlines "e4 ( d4 )").map
        splitWs)).leafPlansByHash.map Prod.snd,
      plan.sanPath = splitWs "e4" ∧
      (stateAfter chessStub chessStub.init plan.sanPath).isSome = true ∧
      joinSp plan.sanPath = "e4" := by
  exact c9_round_trip chessStub "e4 ( d4 )" (by decide) (by decide) (by decide)
    (by decide) (by decide) (by decide) "e4" (by decide)
